import Mathlib

/-!
# meshery-cpx: the release fetcher of `cpx/install-istio.go`

A shallow embedding of the Go file `src/cpx/install-istio.go` and the
properties of it that the specification states.

Conventions of the embedding.

* A Go `string` that holds text (names, URLs, paths, messages) is a Lean
  `String`; file and response contents are `Bytes`, a list of byte values.
* A Go `error` is `GoError = Option Err`, with `none` for `nil`.
* A `time.Time` is an `Int`, nanoseconds since the Unix epoch, and a
  `time.Duration` is an `Int` of nanoseconds.  One call reads one clock value
  `Env.now`.
* Everything the outside world answers during one call (HTTP responses, the
  JSON and gzip/tar decoders, the environment, the clock, the render script,
  the directory tree a walk finds, and `fmt.Sprintf` on the formats that are
  not modelled) is the immutable `Env`; everything the code can change (the `Client`
  fields, the file system, the package-level path variables) is the `State`,
  which also records a trace of the calls the specification talks about.
* A run-time panic (a nil pointer dereference) is the outcome `Outcome.panic`.
* The file system maps cleaned slash-separated paths to files and
  directories.  Permissions are not modelled apart from the mode bits a file
  carries and entries marked `Node.denied`; there are no symbolic links, and
  writing never fails for lack of space.
* Logging (`logrus`) has no effect on any result and is left out.
-/

namespace Cpx

/-! ## Strings (package `strings`) -/

/-- Go `strings.HasSuffix`:
`len(s) >= len(suffix) && s[len(s)-len(suffix):] == suffix`. -/
def HasSuffix (s suffix : String) : Bool :=
  decide (suffix.data.length ≤ s.data.length) &&
    (s.data.drop (s.data.length - suffix.data.length) == suffix.data)

/-- The replacement loop of `strings.Replace` for a non-empty `old` and
`n < 0`: scanning left to right, every non-overlapping occurrence of `old` is
replaced by `new`.  The first argument counts the characters of a matched
occurrence that are still to be skipped. -/
def replaceAux (old new : List Char) : Nat → List Char → List Char
  | _, [] => []
  | skip + 1, _ :: s => replaceAux old new skip s
  | 0, c :: s =>
    if old.isPrefixOf (c :: s) then new ++ replaceAux old new (old.length - 1) s
    else c :: replaceAux old new 0 s

/-- Go `strings.Replace(s, old, new, -1)`.  With `old == new` the string is
returned as it is; with an empty `old` the replacement is inserted before
every character and at the end. -/
def Replace (s old new : String) : String :=
  if old = new then s
  else if old.data = [] then ⟨new.data ++ s.data.flatMap (fun c => c :: new.data)⟩
  else ⟨replaceAux old.data new.data 0 s.data⟩

/-! ## Constants of the source -/

def repoURL : String := "https://api.github.com/repos/istio/istio/releases/19927523"

def urlSuffix : String := "-linux.tar.gz"

/-- The constant `cachePeriod = 6 * time.Hour`, in nanoseconds. -/
def cachePeriod : Int := 6 * (3600 * 1000000000)

/-! ## Time (package `time`) -/

/-- The largest `time.Duration`, `1<<63 - 1` nanoseconds. -/
def maxDuration : Int := 2 ^ 63 - 1

/-- The smallest `time.Duration`, `-1 << 63` nanoseconds. -/
def minDuration : Int := -(2 ^ 63)

/-- Go `t.Sub(u)`: the difference, saturated to the range of `time.Duration`. -/
def timeSub (t u : Int) : Int :=
  if t - u > maxDuration then maxDuration
  else if t - u < minDuration then minDuration
  else t - u

/-- Go `time.Since(t)`, which is `time.Now().Sub(t)`. -/
def timeSince (now t : Int) : Int := timeSub now t

/-- The zero `time.Time` (January 1, year 1, 00:00 UTC), the value of a
`Client` field that was never set. -/
def zeroTime : Int := -62135596800 * 1000000000

/-! ## Errors -/

/-- Go error values, as far as the code builds them. -/
inductive Err where
  /-- Built by `errors.New` or `fmt.Errorf`, with the formatted message. -/
  | text (msg : String)
  /-- Built by `errors.Wrap` or `errors.Wrapf` around a non-nil cause. -/
  | wrap (cause : Err) (msg : String)
  /-- Reported by the operating system or a library call `op` on `arg`. -/
  | sys (op : String) (arg : String)
  deriving DecidableEq, Repr

/-- A Go `error`; `none` is `nil`. -/
abbrev GoError := Option Err

/-- The functions `errors.Wrap` and `errors.Wrapf` of `github.com/pkg/errors`:
"If err is nil, Wrapf returns nil." -/
def errorsWrapf (err : GoError) (msg : String) : GoError :=
  match err with
  | none => none
  | some e => some (Err.wrap e msg)

/-- What a call yields: it returns a value, or it panics. -/
inductive Outcome (α : Type) where
  | ret (a : α)
  | panic
  deriving DecidableEq, Repr

/-! ## Data model -/

/-- File and response contents: a sequence of byte values. -/
abbrev Bytes := List Nat

/-- The struct `asset`. -/
structure asset where
  Name : String
  State : String
  DownloadURL : String
  deriving DecidableEq, Repr

/-- The struct `apiInfo`.  `Assets` is a Go `[]*asset`: `none` is the nil
slice, and an element `none` is a nil pointer (a JSON `null`). -/
structure apiInfo where
  TagName : String
  PreRelease : Bool
  Assets : Option (List (Option asset))
  deriving DecidableEq, Repr

/-- The fields of `Client` that this file reads and writes. -/
structure Client where
  cpxReleaseVersion : String
  cpxReleaseDownloadURL : String
  cpxReleaseUpdatedAt : Int
  cpxResourcesDownloadURL : String
  deriving DecidableEq, Repr

/-- A response body: the bytes that can be read from it, and whether reading
ends in an error after them. -/
structure Body where
  data : Bytes
  readErr : Bool
  deriving DecidableEq, Repr

/-- An `http.Response`, as far as the code reads it. -/
structure Response where
  StatusCode : Int
  Status : String
  body : Body
  deriving DecidableEq, Repr

/-- A regular file: contents, permission bits and modification time. -/
structure File where
  data : Bytes
  mode : Nat
  modTime : Int
  deriving DecidableEq, Repr

/-- What a path names. -/
inductive Node where
  | file (f : File)
  | dir (modTime : Int)
  /-- An entry every access to which fails with a permission error. -/
  | denied
  deriving DecidableEq, Repr

/-- The file system: what each (cleaned) path names, if anything. -/
abbrev FS := String → Option Node

/-- The type flag of a tar header. -/
inductive Typeflag where
  | TypeReg
  | TypeDir
  | other
  deriving DecidableEq, Repr

/-- A `tar.Header`, as far as the code reads it. -/
structure Header where
  Name : String
  Typeflag : Typeflag
  Mode : Int
  deriving DecidableEq, Repr

/-- One entry of a tar stream: its header, the bytes of its body, and whether
reading the body ends in an error after them. -/
structure TarEntry where
  header : Header
  data : Bytes
  readErr : Bool
  deriving DecidableEq, Repr

/-- A decoded tar stream: `tarReader.Next()` yields the entries in order and
then `io.EOF`, or a different error when `corrupt` is set. -/
structure TarStream where
  entries : List TarEntry
  corrupt : Bool
  deriving DecidableEq, Repr

/-- The calls the specification talks about, as recorded in the trace. -/
inductive Event where
  /-- A call `http.Get(url)`. -/
  | httpGet (url : String)
  /-- A call `iClient.downloadFile(downloadURL, localFile)`. -/
  | downloadFile (downloadURL localFile : String)
  /-- A call `iClient.untarPackage(destination, fileToUntar)`. -/
  | untarPackage (destination fileToUntar : String)
  /-- A call `exec.Command(argv...).Run()`. -/
  | exec (argv : List String)
  deriving DecidableEq, Repr

/-- The directory tree `filepath.Walk` traverses from a root: for a file,
what `ioutil.ReadFile` yields on it (`none` is an error); for a directory,
whether its names can be read and, in the order in which the directory holds
them, its entries; `broken` is an entry on which `Lstat` fails. -/
inductive Tree where
  | file (name : String) (contents : Option Bytes)
  | dir (name : String) (readable : Bool) (entries : List Tree)
  | broken (name : String)
  deriving Repr

/-- What the outside world answers during one call. -/
structure Env where
  /-- The answer to `http.Get(url)`; `none` is a transport error. -/
  http : String → Option Response
  /-- The function `json.Unmarshal(body, &apiInfo{})`; `none` is a decoding error. -/
  unmarshal : Bytes → Option apiInfo
  /-- The gzip and tar decoders on a file's bytes; `none` when
  `gzip.NewReader` fails. -/
  gunzipTar : Bytes → Option TarStream
  /-- Running a command on a file system: whether it exits with status 0,
  and the file system it leaves. -/
  exec : List String → FS → Bool × FS
  /-- The function `os.Getenv`. -/
  getenv : String → String
  /-- The clock. -/
  now : Int
  /-- The file mode creation mask of the process. -/
  umask : Nat
  /-- The value of `os.TempDir()`. -/
  tempDir : String
  /-- The tree that `filepath.Walk` finds at a root path of a file system. -/
  lstatTree : FS → String → Tree
  /-- The function `fmt.Sprintf(format, arg)` with one string operand, for
  the formats that `sprintfAux` does not cover. -/
  fmtSprintf : String → String → String

/-- What the code can change. -/
structure State where
  client : Client
  fs : FS
  /-- The package-level variable `localFile`. -/
  localFile : String
  /-- The package-level variable `cpxIstioLocalFile`. -/
  cpxIstioLocalFile : String
  trace : List Event

/-- The state with one more event recorded. -/
def State.log (s : State) (e : Event) : State :=
  { s with trace := s.trace ++ [e] }

/-! ## `getLatestReleaseURL` -/

/-- Go `fmt.Errorf("... status code: %d", resp.StatusCode)`. -/
def statusCodeError (code : Int) : Err :=
  Err.text ("unable to fetch release info due to an unexpected status code: " ++ toString code)

/-- The loop `for _, asset := range result.Assets` of `getLatestReleaseURL`:
the client after the first asset whose name has the suffix, `none` when the
loop ends without one, and a panic at a nil asset (`asset.Name`). -/
def scanAssets (now : Int) (c : Client) : List (Option asset) → Outcome (Option Client)
  | [] => Outcome.ret none
  | none :: _ => Outcome.panic
  | some a :: rest =>
    if HasSuffix a.Name urlSuffix then
      Outcome.ret (some { c with
        cpxReleaseVersion := Replace a.Name urlSuffix ""
        cpxReleaseDownloadURL := a.DownloadURL
        cpxReleaseUpdatedAt := now })
    else scanAssets now c rest

/-- The method `getLatestReleaseURL`. -/
def getLatestReleaseURL (env : Env) (s : State) : Outcome GoError × State :=
  if s.client.cpxReleaseDownloadURL = "" ∨
      timeSince env.now s.client.cpxReleaseUpdatedAt > cachePeriod then
    let s1 := s.log (Event.httpGet repoURL)
    match env.http repoURL with
    | none =>
      (Outcome.ret (errorsWrapf (some (Err.sys "http.Get" repoURL))
        "error getting latest version info"), s1)
    | some resp =>
      if resp.StatusCode ≠ 200 then
        (Outcome.ret (some (statusCodeError resp.StatusCode)), s1)
      else if resp.body.readErr then
        (Outcome.ret (errorsWrapf (some (Err.sys "ioutil.ReadAll" repoURL))
          "error parsing response body"), s1)
      else
        match env.unmarshal resp.body.data with
        | none =>
          (Outcome.ret (errorsWrapf (some (Err.sys "json.Unmarshal" repoURL))
            "error unmarshalling response body"), s1)
        | some result =>
          match result.Assets with
          | none => (Outcome.ret (some (Err.text "unable to extract the download URL")), s1)
          | some assets =>
            -- `len(result.Assets) > 0`: an empty list runs no iteration either way
            match scanAssets env.now s1.client assets with
            | Outcome.panic => (Outcome.panic, s1)
            | Outcome.ret (some c) => (Outcome.ret none, { s1 with client := c })
            | Outcome.ret none =>
              (Outcome.ret (some (Err.text "unable to extract the download URL")), s1)
  else (Outcome.ret none, s)

/-! ## Paths (packages `path` and `path/filepath`, with `/` as separator) -/

/-- The elements of a path between its slashes. -/
def splitSlash : List Char → List (List Char)
  | [] => [[]]
  | c :: cs =>
    match splitSlash cs with
    | [] => [[]]
    | x :: xs => if c = '/' then [] :: x :: xs else (c :: x) :: xs

/-- One step of `Clean` over the elements kept so far (last element first):
empty and `.` elements are dropped, `..` removes the element before it, and
a leading `..` is dropped in a rooted path and kept otherwise. -/
def cleanStep (rooted : Bool) (kept : List (List Char)) (elem : List Char) : List (List Char) :=
  if elem = [] ∨ elem = ['.'] then kept
  else if elem = ['.', '.'] then
    match kept with
    | [] => if rooted then [] else [elem]
    | top :: below => if top = ['.', '.'] then elem :: kept else below
  else elem :: kept

/-- Go `path.Clean`: the shortest path equivalent to the given one. -/
def Clean (p : String) : String :=
  let rooted := p.data.head? == some '/'
  let kept := ((splitSlash p.data).foldl (cleanStep rooted) []).reverse
  let body := String.mk (List.intercalate ['/'] kept)
  if rooted then "/" ++ body
  else if body = "" then "."
  else body

/-- Go `path.Join` of two elements: empty elements are ignored, the rest are
joined by a slash and the result is cleaned; all elements empty gives the
empty string. -/
def Join (a b : String) : String :=
  if a = "" then (if b = "" then "" else Clean b)
  else Clean (a ++ "/" ++ b)

/-- The part of a path up to and including its last slash. -/
def dirPart (p : List Char) : List Char :=
  (p.reverse.dropWhile (fun c => c != '/')).reverse

/-- Go `path.Dir`: all but the last element of the path, cleaned. -/
def Dir (p : String) : String := Clean (String.mk (dirPart p.data))

/-! ## The file system -/

/-- The file system with path `p` naming `n`. -/
def FS.set (fs : FS) (p : String) (n : Node) : FS :=
  fun q => if q = p then some n else fs q

/-- Whether a node is a directory. -/
def Node.isDir : Node → Bool
  | Node.dir _ => true
  | _ => false

/-- The modification time `os.Stat` reports for a node. -/
def Node.modTime : Node → Int
  | Node.file f => f.modTime
  | Node.dir t => t
  | Node.denied => 0

/-- Go `os.Stat(p)`: the node when the call succeeds, `none` when it returns
an error (nothing at the path, or access denied). -/
def osStat (fs : FS) (p : String) : Option Node :=
  match fs p with
  | some Node.denied => none
  | r => r

/-- The error numbers with which resolving a path fails. -/
inductive Errno where
  | ENOENT
  | ENOTDIR
  | EACCES
  deriving DecidableEq, Repr

/-- The paths of the directories that hold `p`, the outermost first: for
`/tmp/a/b` they are `/`, `/tmp` and `/tmp/a`, and for the relative `a/b` they
are `.` and `a`. -/
def ancestors (p : String) : List String :=
  let rooted := p.data.head? == some '/'
  let elems := (splitSlash p.data).filter (fun e => e != [])
  (elems.dropLast.inits).map (fun pre =>
    Clean ((if rooted then "/" else "") ++ String.mk (List.intercalate ['/'] pre)))

/-- The error of looking up the directories that lead to a path, the
outermost first: the first of them that is not a directory decides, a
regular file giving `ENOTDIR`, an inaccessible entry `EACCES` and a missing
one `ENOENT`. -/
def lookupErrno (fs : FS) : List String → Option Errno
  | [] => none
  | a :: rest =>
    match fs a with
    | some (Node.dir _) => lookupErrno fs rest
    | some (Node.file _) => some Errno.ENOTDIR
    | some Node.denied => some Errno.EACCES
    | none => some Errno.ENOENT

/-- Go `os.IsNotExist(err)` for the error of a failed `os.Stat(p)`: nothing
is at the path, and the lookup of the path fails with `ENOENT`, not with
`ENOTDIR` (a regular file on the way) or `EACCES`. -/
def statNotExist (fs : FS) (p : String) : Bool :=
  (fs p).isNone &&
    (match lookupErrno fs (ancestors p) with
     | none => true
     | some e => e == Errno.ENOENT)

/-- Whether the directory that is to hold `p` exists. -/
def parentIsDir (fs : FS) (p : String) : Bool :=
  match fs (Dir p) with
  | some n => n.isDir
  | none => false

/-- Go `os.FileMode(header.Mode)`: the conversion of an `int64` to `uint32`. -/
def fileModeOf (m : Int) : Nat := (m % 2 ^ 32).toNat

/-- The function `syscallMode` of package `os`: the permission bits of a
`FileMode`, and its setuid, setgid and sticky flags as Unix mode bits. -/
def syscallMode (i : Nat) : Nat :=
  (i &&& 0o777) ||| (if i.testBit 23 then 0o4000 else 0) |||
    (if i.testBit 22 then 0o2000 else 0) ||| (if i.testBit 20 then 0o1000 else 0)

/-- The mode a file created with mode `m` gets under the creation mask. -/
def createMode (umask m : Nat) : Nat := m ^^^ (m &&& umask)

/-- Go `os.OpenFile(p, os.O_RDWR|os.O_CREATE[|os.O_TRUNC], perm)` followed by
closing the handle: the file system after a successful call, `none` when the
call fails.  An existing file is opened as it is (and emptied only under
`O_TRUNC`, keeping its mode); a missing one is created empty, with the
permissions `perm` less the creation mask, if its directory exists. -/
def osOpenFile (env : Env) (fs : FS) (p : String) (trunc : Bool) (perm : Nat) : Option FS :=
  match fs p with
  | some (Node.file f) =>
    if trunc then some (fs.set p (Node.file { f with data := [], modTime := env.now }))
    else some fs
  | some (Node.dir _) => none
  | some Node.denied => none
  | none =>
    if parentIsDir fs p then
      some (fs.set p (Node.file
        { data := [], mode := createMode env.umask (syscallMode perm), modTime := env.now }))
    else none

/-- Go `os.Create(p)`, which is `OpenFile(p, O_RDWR|O_CREATE|O_TRUNC, 0666)`. -/
def osCreate (env : Env) (fs : FS) (p : String) : Option FS :=
  osOpenFile env fs p true 0o666

/-- Writing `data` through a freshly opened handle on the file at `p`
(`io.Copy(file, reader)`): the bytes go to offsets `0`, `1`, ... of the file,
and what the file holds beyond them stays. -/
def writeFromStart (env : Env) (fs : FS) (p : String) (data : Bytes) : FS :=
  match fs p with
  | some (Node.file f) =>
    if data = [] then fs
    else fs.set p (Node.file
      { f with data := data ++ f.data.drop data.length, modTime := env.now })
  | _ => fs

/-- Go `ioutil.ReadFile(p)`: the contents of the file, `none` on an error. -/
def ReadFile (fs : FS) (p : String) : Option Bytes :=
  match fs p with
  | some (Node.file f) => some f.data
  | _ => none

/-- Go `os.Mkdir(p, perm)`: the path must be free and its directory exist. -/
def osMkdir (env : Env) (fs : FS) (p : String) : Option FS :=
  match fs p with
  | none => if parentIsDir fs p then some (fs.set p (Node.dir env.now)) else none
  | some _ => none

/-- The recursion of `os.MkdirAll` on a path given by its elements, last
element first: a path that `Stat` finds is a success if it is a directory and
an error otherwise; else the parent is made first (unless the path has a
single element), and then the path itself by `Mkdir`.  Directories made
before a failure stay. -/
def mkdirAllAux (env : Env) (rooted : Bool) : List (List Char) → FS → Bool × FS
  | [], fs => (true, fs)
  | elem :: above, fs =>
    let p := (if rooted then "/" else "") ++ String.mk (List.intercalate ['/'] (elem :: above).reverse)
    match osStat fs p with
    | some n => (n.isDir, fs)
    | none =>
      let (ok, fs1) := if above = [] then (true, fs) else mkdirAllAux env rooted above fs
      if ok then
        match osMkdir env fs1 p with
        | some fs2 => (true, fs2)
        | none => (false, fs1)
      else (false, fs1)

/-- Go `os.MkdirAll(p, 0755)` on a cleaned path. -/
def MkdirAll (env : Env) (fs : FS) (p : String) : Bool × FS :=
  let rooted := p.data.head? == some '/'
  mkdirAllAux env rooted ((splitSlash p.data).filter (fun e => e != [])).reverse fs

/-! ## Package-level paths -/

def localByPassFile : String := "/app/istio-1.3.0.tar.gz"

/-- The initial value of the variable `localFile`,
`path.Join(os.TempDir(), "istio-1.3.0.tar.gz")`. -/
def localFileInit (env : Env) : String := Join env.tempDir "istio-1.3.0.tar.gz"

def destinationFolder (env : Env) : String := Join env.tempDir "istio"

def basePath (env : Env) : String := Join (destinationFolder env) "%s"

def crdFolder (env : Env) : String :=
  Join (basePath env) "install/kubernetes/helm/istio-init/files/"

def cpxDestinationFolder (env : Env) : String :=
  Join env.tempDir "citrix-istio-adaptor-1.1.0-beta"

def cpxBasePath (env : Env) : String :=
  Join (cpxDestinationFolder env) "citrix-istio-adaptor-1.1.0-beta"

def cpxGenerateYamlScript (env : Env) : String :=
  Join (cpxBasePath env) "deployment/generate_yaml.sh"

/-! ## `downloadFile` -/

/-- The method `downloadFile`. -/
def downloadFile (env : Env) (s : State) (downloadURL localFile : String) : GoError × State :=
  let s0 := s.log (Event.downloadFile downloadURL localFile)
  match osCreate env s0.fs localFile with
  | none =>
    (errorsWrapf (some (Err.sys "os.Create" localFile))
      ("unable to create a file on the filesystem at " ++ localFile), s0)
  | some fs1 =>
    let s1 := ({ s0 with fs := fs1 } : State).log (Event.httpGet downloadURL)
    match env.http downloadURL with
    | none =>
      (errorsWrapf (some (Err.sys "http.Get" downloadURL))
        ("unable to download the file from URL: " ++ downloadURL), s1)
    | some resp =>
      if resp.StatusCode ≠ 200 then
        (some (Err.text ("unable to download the file from URL: " ++ downloadURL ++
          ", status: " ++ resp.Status)), s1)
      else
        let s2 : State := { s1 with fs := writeFromStart env s1.fs localFile resp.body.data }
        if resp.body.readErr then
          (errorsWrapf (some (Err.sys "io.Copy" localFile))
            ("unable to write the downloaded file to the file system at " ++ localFile), s2)
        else (none, s2)

/-! ## `untarPackage` -/

/-- The loop `for { header, err := tarReader.Next() ... }` of `untarPackage`
over the entries that are left, `corrupt` telling whether the stream ends in
an error instead of `io.EOF`. -/
def untarLoop (env : Env) (destination : String) (corrupt : Bool) :
    List TarEntry → FS → GoError × FS
  | [], fs =>
    if corrupt then (errorsWrapf (some (Err.sys "tar.Next" "")) "error during untar", fs)
    else (none, fs)
  | e :: rest, fs =>
    let fileInLoop := Join destination e.header.Name
    match e.header.Typeflag with
    | Typeflag.TypeDir =>
      match osStat fs fileInLoop with
      | some _ => untarLoop env destination corrupt rest fs
      | none =>
        match MkdirAll env fs fileInLoop with
        | (true, fs1) => untarLoop env destination corrupt rest fs1
        | (false, fs1) =>
          (errorsWrapf (some (Err.sys "os.MkdirAll" fileInLoop))
            ("error creating directory " ++ fileInLoop), fs1)
    | Typeflag.TypeReg =>
      match osOpenFile env fs fileInLoop false (fileModeOf e.header.Mode) with
      | none =>
        (errorsWrapf (some (Err.sys "os.OpenFile" fileInLoop))
          ("error opening file " ++ fileInLoop), fs)
      | some fs1 =>
        let fs2 := writeFromStart env fs1 fileInLoop e.data
        if e.readErr then
          (errorsWrapf (some (Err.sys "io.Copy" fileInLoop))
            ("error writing file " ++ fileInLoop), fs2)
        else untarLoop env destination corrupt rest fs2
    | Typeflag.other => untarLoop env destination corrupt rest fs

/-- The method `untarPackage`.  The archive is decoded from the bytes the
file holds when it is opened. -/
def untarPackage (env : Env) (s : State) (destination fileToUntar : String) : GoError × State :=
  let s0 := s.log (Event.untarPackage destination fileToUntar)
  match s0.fs fileToUntar with
  | some (Node.file f) =>
    match env.gunzipTar f.data with
    | none =>
      (errorsWrapf (some (Err.sys "gzip.NewReader" fileToUntar))
        "unable to load the file into a gz reader", s0)
    | some stream =>
      let r := untarLoop env destination stream.corrupt stream.entries s0.fs
      (r.1, { s0 with fs := r.2 })
  | some (Node.dir _) =>
    (errorsWrapf (some (Err.sys "gzip.NewReader" fileToUntar))
      "unable to load the file into a gz reader", s0)
  | _ =>
    (errorsWrapf (some (Err.sys "os.Open" fileToUntar))
      ("unable to read the local file " ++ fileToUntar), s0)

/-! ## `downloadCpx` -/

/-- The method `downloadCpx`: the returned pair is `(fileName, err)`. -/
def downloadCpx (env : Env) (s : State) : Outcome (String × GoError) × State :=
  match osStat s.fs localByPassFile with
  | none =>
    match getLatestReleaseURL env s with
    | (Outcome.panic, s1) => (Outcome.panic, s1)
    | (Outcome.ret (some err), s1) => (Outcome.ret ("", some err), s1)
    | (Outcome.ret none, s1) =>
      let fileName := s1.client.cpxReleaseVersion
      let downloadURL := s1.client.cpxReleaseDownloadURL
      let proceedWithDownload : Bool :=
        match osStat s1.fs s1.localFile with
        | some lFileStat => decide (timeSince env.now lFileStat.modTime > cachePeriod)
        | none => true
      let r :=
        if proceedWithDownload then downloadFile env s1 downloadURL s1.localFile
        else (none, s1)
      match r with
      | (some err, s2) => (Outcome.ret ("", some err), s2)
      | (none, s2) =>
        match untarPackage env s2 (destinationFolder env) s2.localFile with
        | (some err, s3) => (Outcome.ret ("", some err), s3)
        | (none, s3) => (Outcome.ret (fileName, none), s3)
  | some _ =>
    let s1 : State := { s with localFile := localByPassFile }
    let fileName := env.getenv "ISTIO_VERSION"
    match untarPackage env s1 (destinationFolder env) s1.localFile with
    | (some err, s2) => (Outcome.ret ("", some err), s2)
    | (none, s2) => (Outcome.ret (fileName, none), s2)

/-! ## Direct download and template rendering -/

/-- The method `downloadFileFromURL`.  On a status other than 200 the
variable `err` still holds the `nil` that `http.Get` returned, and that is
what `errors.Wrapf` is called on. -/
def downloadFileFromURL (env : Env) (s : State) (filepath fileURL : String) : GoError × State :=
  let s1 := s.log (Event.httpGet fileURL)
  match env.http fileURL with
  | none =>
    (errorsWrapf (some (Err.sys "http.Get" fileURL)) ("error getting data from " ++ fileURL), s1)
  | some resp =>
    -- `resp, err := http.Get(fileURL)` with `err == nil`
    let err : GoError := none
    if resp.StatusCode = 200 then
      match osCreate env s1.fs filepath with
      | none =>
        (errorsWrapf (some (Err.sys "os.Create" filepath))
          ("Could not create " ++ filepath ++ " file locally"), s1)
      | some fs1 =>
        let s2 : State := { s1 with fs := writeFromStart env fs1 filepath resp.body.data }
        if resp.body.readErr then (some (Err.sys "io.Copy" filepath), s2) else (none, s2)
    else
      (errorsWrapf err ("Call failed with response status: " ++ resp.Status), s1)

/-- The method `runGenerateYamlScript`: the returned pair is
`(outputYamlFile, err)`. -/
def runGenerateYamlScript (env : Env) (s : State) (inputTmplFile : String) :
    (String × GoError) × State :=
  if statNotExist s.fs (cpxGenerateYamlScript env) then
    (("", some (Err.sys "os.Stat" (cpxGenerateYamlScript env))), s)
  else
    let outputYamlFile := Replace inputTmplFile ".tmpl" ".yaml"
    let argv := ["/bin/sh", cpxGenerateYamlScript env, "--inputfile", inputTmplFile,
      "--outputfile", outputYamlFile]
    let s1 := s.log (Event.exec argv)
    let r := env.exec argv s1.fs
    let s2 : State := { s1 with fs := r.2 }
    if r.1 then ((outputYamlFile, none), s2)
    else (("", some (Err.sys "exec.Run" (cpxGenerateYamlScript env))), s2)

/-- The last step of `getCpxYamlContent`, `ioutil.ReadFile(fileName)` and the
conversion of its result. -/
def readContents (s : State) (fileName : String) : (Bytes × GoError) × State :=
  match ReadFile s.fs fileName with
  | none => (([], errorsWrapf (some (Err.sys "ioutil.ReadFile" fileName)) "unable to read file"), s)
  | some fileContents => ((fileContents, none), s)

/-- The method `getCpxYamlContent`: the returned pair is `(contents, err)`.
The `fileName` that `fileName, err := iClient.runGenerateYamlScript(fileName)`
declares lives in the block of the `if` only; the `ioutil.ReadFile(fileName)`
after the block reads the parameter. -/
def getCpxYamlContent (env : Env) (s : State) (fileName fileURL : String) :
    (Bytes × GoError) × State :=
  match downloadFileFromURL env s fileName fileURL with
  | (some err, s1) => (([], some err), s1)
  | (none, s1) =>
    if HasSuffix fileName ".tmpl" then
      match runGenerateYamlScript env s1 fileName with
      | ((_, some err), s2) => (([], some err), s2)
      -- the path returned is bound to the `fileName` of the block and not read again
      | ((_fileName, none), s2) => readContents s2 fileName
    else readContents s1 fileName

/-! ## Regular expressions (package `regexp`) -/

/-- Regular expressions, as far as the pattern of the source needs them. -/
inductive Regex where
  /-- Matches no string. -/
  | fail
  /-- Matches the empty string. -/
  | eps
  /-- Matches the one character. -/
  | char (c : Char)
  /-- The pattern `.`: any character but a newline. -/
  | dot
  /-- Any character. -/
  | any
  | seq (r s : Regex)
  | alt (r s : Regex)
  | star (r : Regex)
  deriving DecidableEq, Repr

/-- Whether the expression matches the empty string. -/
def Regex.nullable : Regex → Bool
  | Regex.fail => false
  | Regex.eps => true
  | Regex.char _ => false
  | Regex.dot => false
  | Regex.any => false
  | Regex.seq r s => r.nullable && s.nullable
  | Regex.alt r s => r.nullable || s.nullable
  | Regex.star _ => true

/-- The derivative: what is left to match after the character `c`. -/
def Regex.deriv (c : Char) : Regex → Regex
  | Regex.fail => Regex.fail
  | Regex.eps => Regex.fail
  | Regex.char d => if c = d then Regex.eps else Regex.fail
  | Regex.dot => if c = '\n' then Regex.fail else Regex.eps
  | Regex.any => Regex.eps
  | Regex.seq r s =>
    if r.nullable then Regex.alt (Regex.seq (r.deriv c) s) (s.deriv c)
    else Regex.seq (r.deriv c) s
  | Regex.alt r s => Regex.alt (r.deriv c) (s.deriv c)
  | Regex.star r => Regex.seq (r.deriv c) (Regex.star r)

/-- Whether the expression matches the whole of the text. -/
def Regex.matchesAll (r : Regex) (text : List Char) : Bool :=
  (text.foldl (fun q c => q.deriv c) r).nullable

/-- Go `rEx.MatchString(s)`: whether some substring of `s` matches. -/
def MatchString (r : Regex) (s : String) : Bool :=
  (Regex.seq (Regex.star Regex.any) (Regex.seq r (Regex.star Regex.any))).matchesAll s.data

/-- The expression that matches exactly the given text. -/
def Regex.lit : List Char → Regex
  | [] => Regex.eps
  | c :: cs => Regex.seq (Regex.char c) (Regex.lit cs)

def crdPattern : String := "crd(.*)yaml"

/-- The result of `regexp.Compile(crdPattern)`: `crd`, then any characters but
newlines, then `yaml`. -/
def crdRegex : Regex :=
  Regex.seq (Regex.lit ['c', 'r', 'd'])
    (Regex.seq (Regex.star Regex.dot) (Regex.lit ['y', 'a', 'm', 'l']))

/-! ## `getCRDsYAML` -/

/-- The text `%!(EXTRA string=arg)` that `fmt.Sprintf` appends when no verb
has used the operand. -/
def sprintfExtra (arg : List Char) : List Char :=
  "%!(EXTRA string=".data ++ arg ++ [')']

/-- The text `%!c(string=arg)` that `fmt.Sprintf` prints for a verb `c` that
does not apply to a string. -/
def sprintfBadVerb (verb : Char) (arg : List Char) : List Char :=
  ['%', '!', verb] ++ "(string=".data ++ arg ++ [')']

/-- The text `%!c(MISSING)` that `fmt.Sprintf` prints for a verb `c` for
which no operand is left. -/
def sprintfMissing (verb : Char) : List Char :=
  ['%', '!', verb] ++ "(MISSING)".data

/-- The loop of `doPrintf` for one string operand, `used` telling whether a
verb has used the operand: text is copied; `%%` prints a percent sign; `%s`
and `%v` print the operand and `%T` its type; any other verb prints the
operand as a bad verb; a verb that finds the operand used prints it as
missing; a percent sign at the end prints `%!(NOVERB)`; and an operand that
no verb has used is appended as extra.  The result is `none` for a format
that has a flag, a width, a precision or an argument index after a percent
sign, or one of the verbs `q`, `x` and `X`. -/
def sprintfAux (arg : List Char) : Bool → List Char → Option (List Char)
  | used, [] => some (if used then [] else sprintfExtra arg)
  | used, c :: rest =>
    if c = '%' then
      match rest with
      | [] => some ("%!(NOVERB)".data ++ (if used then [] else sprintfExtra arg))
      | verb :: rest1 =>
        if verb ∈ ['#', '0', '-', '+', ' ', '[', '*', '.', '1', '2', '3', '4', '5', '6', '7',
            '8', '9'] then none
        else if verb = '%' then (sprintfAux arg used rest1).map (fun t => '%' :: t)
        else if used then (sprintfAux arg true rest1).map (fun t => sprintfMissing verb ++ t)
        else if verb = 's' ∨ verb = 'v' then (sprintfAux arg true rest1).map (fun t => arg ++ t)
        else if verb = 'T' then (sprintfAux arg true rest1).map (fun t => "string".data ++ t)
        else if verb = 'q' ∨ verb = 'x' ∨ verb = 'X' then none
        else (sprintfAux arg true rest1).map (fun t => sprintfBadVerb verb arg ++ t)
    else (sprintfAux arg used rest).map (fun t => c :: t)

/-- Go `fmt.Sprintf(format, arg)` with one string operand: what `sprintfAux`
computes, and for the formats it does not cover the answer of the library. -/
def Sprintf (env : Env) (format arg : String) : String :=
  match sprintfAux arg.data false format.data with
  | some t => String.mk t
  | none => env.fmtSprintf format arg

/-- The function literal that `getCRDsYAML` passes to `filepath.Walk`, on an
entry with base name `name`: `walkErr` tells whether its `err` argument is
non-nil, `contents` is what `ioutil.ReadFile(currentPath)` yields, and `res`
is the captured result list.  It returns its error and the list. -/
def crdWalkFn (res : List Bytes) (name : String) (walkErr : Bool) (contents : Option Bytes) :
    GoError × List Bytes :=
  if !walkErr && MatchString crdRegex name then
    match contents with
    | none =>
      (errorsWrapf (some (Err.sys "ioutil.ReadFile" name)) "unable to read file", res)
    | some c => (none, res ++ [c])
  else (none, res)

/-- Whether the first text comes before the second in the order of
`sort.Strings`, which compares byte by byte; on UTF-8 text that is the order
of the code points. -/
def ltChars : List Char → List Char → Bool
  | _, [] => false
  | [], _ :: _ => true
  | a :: as, b :: bs =>
    if a.toNat < b.toNat then true
    else if b.toNat < a.toNat then false
    else ltChars as bs

/-- The base name of an entry. -/
def Tree.name : Tree → String
  | Tree.file name _ => name
  | Tree.dir name _ _ => name
  | Tree.broken name => name

/-- An entry put at its place in a list of entries sorted by name. -/
def insertByName (t : Tree) : List Tree → List Tree
  | [] => [t]
  | u :: us =>
    if ltChars u.name.data t.name.data then u :: insertByName t us else t :: u :: us

/-- The entries of a directory in the order in which `readDirNames` returns
their names: sorted by `sort.Strings`. -/
def orderByName : List Tree → List Tree
  | [] => []
  | t :: ts => insertByName t (orderByName ts)

mutual
/-- The tree as `walk` reads it: the entries of every directory in the order
of `readDirNames`. -/
def Tree.sortNames : Tree → Tree
  | Tree.file name contents => Tree.file name contents
  | Tree.broken name => Tree.broken name
  | Tree.dir name readable entries => Tree.dir name readable (orderByName (sortNamesList entries))
/-- The trees of a list, each as `walk` reads it. -/
def sortNamesList : List Tree → List Tree
  | [] => []
  | t :: ts => t.sortNames :: sortNamesList ts
end

mutual
/-- The function `walk` of `path/filepath` on a tree whose directories list
their entries in the order of `readDirNames`, with the function literal of
`getCRDsYAML` as `walkFn` (which never returns `filepath.SkipDir`): a file is
passed to `walkFn`; a directory is passed to `walkFn` with the error of
reading its names, and if there is none and `walkFn` returns `nil` its
entries are walked in order; an entry on which `Lstat` fails is passed to
`walkFn` with that error.  Reading a directory as a file fails. -/
def walk : Tree → List Bytes → GoError × List Bytes
  | Tree.file name contents, res => crdWalkFn res name false contents
  | Tree.broken name, res => crdWalkFn res name true none
  | Tree.dir name readable entries, res =>
    match crdWalkFn res name (!readable) none with
    | (some err, res1) => (some err, res1)
    | (none, res1) => if readable then walkList entries res1 else (none, res1)
/-- The loop `for _, name := range names` of `walk`: it stops at the first
entry whose walk returns an error. -/
def walkList : List Tree → List Bytes → GoError × List Bytes
  | [], res => (none, res)
  | t :: ts, res =>
    match walk t res with
    | (some err, res1) => (some err, res1)
    | (none, res1) => walkList ts res1
end

/-- The method `getCRDsYAML`: the returned pair is `(res, err)`, with `none`
for a nil slice. -/
def getCRDsYAML (env : Env) (s : State) : Outcome (Option (List Bytes) × GoError) × State :=
  match downloadCpx env s with
  | (Outcome.panic, s1) => (Outcome.panic, s1)
  | (Outcome.ret (_, some err), s1) => (Outcome.ret (none, some err), s1)
  | (Outcome.ret (specificVersionName, none), s1) =>
    let startFolder := Sprintf env (crdFolder env) specificVersionName
    match walk (env.lstatTree s1.fs startFolder).sortNames [] with
    | (some err, _) =>
      (Outcome.ret (none, errorsWrapf (some err) "unable to read the directory"), s1)
    | (none, res) => (Outcome.ret (some res, none), s1)

/-! ## The walk as a list of visits -/

/-- One call of the function literal during a walk: the base name of the
entry, whether the walk reports an error for it, and what
`ioutil.ReadFile` yields on it. -/
structure Visit where
  name : String
  walkErr : Bool
  contents : Option Bytes
  deriving DecidableEq, Repr

mutual
/-- The entries of a tree, a directory before its entries, the entries in
the order of the list, and nothing below a directory whose names cannot be
read. -/
def Tree.visitsInOrder : Tree → List Visit
  | Tree.file name contents => [{ name := name, walkErr := false, contents := contents }]
  | Tree.broken name => [{ name := name, walkErr := true, contents := none }]
  | Tree.dir name readable entries =>
    { name := name, walkErr := !readable, contents := none } ::
      (if readable then visitsList entries else [])
/-- The visits of the trees of a list, one tree after the other. -/
def visitsList : List Tree → List Visit
  | [] => []
  | t :: ts => t.visitsInOrder ++ visitsList ts
end

/-- The entries of a tree in the order `filepath.Walk` reaches them when no
call stops it: a directory before its entries, the entries of a directory
sorted by name, and nothing below a directory whose names cannot be read. -/
def Tree.visits (t : Tree) : List Visit := t.sortNames.visitsInOrder

/-- The function literal of `getCRDsYAML` called on the visits in order, up
to the first call that returns an error. -/
def runVisits : List Visit → List Bytes → GoError × List Bytes
  | [], res => (none, res)
  | v :: vs, res =>
    match crdWalkFn res v.name v.walkErr v.contents with
    | (some err, res1) => (some err, res1)
    | (none, res1) => runVisits vs res1

/-- A file system that differs from an earlier one only by directories made
at paths that held nothing. -/
def OnlyAddsDirs (env : Env) (fs fs1 : FS) : Prop :=
  ∀ q, fs1 q = fs q ∨ (fs q = none ∧ fs1 q = some (Node.dir env.now))

mutual
/-- Whether every entry of a tree is readable: `Lstat` succeeds on every
entry, the names of every directory can be read, and every file can be read
by `ioutil.ReadFile`. -/
def Tree.allReadable : Tree → Bool
  | Tree.file _ contents => contents.isSome
  | Tree.broken _ => false
  | Tree.dir _ readable entries => readable && allReadableList entries
/-- Whether every entry of every tree of a list is readable. -/
def allReadableList : List Tree → Bool
  | [] => true
  | t :: ts => t.allReadable && allReadableList ts
end

mutual
/-- Whether no directory of a tree has a base name that matches
`crdPattern`. -/
def Tree.noMatchingDir : Tree → Bool
  | Tree.file _ _ => true
  | Tree.broken _ => true
  | Tree.dir name _ entries => !MatchString crdRegex name && noMatchingDirList entries
/-- Whether no directory of the trees of a list has a base name that matches
`crdPattern`. -/
def noMatchingDirList : List Tree → Bool
  | [] => true
  | t :: ts => t.noMatchingDir && noMatchingDirList ts
end

mutual
/-- The entries of a tree below the directory `parent`, in the order of
`Tree.visitsInOrder`, each with its path `filepath.Join(parent, name)`. -/
def Tree.walkEntries (parent : String) : Tree → List (String × Visit)
  | Tree.file name contents =>
    [(Join parent name, { name := name, walkErr := false, contents := contents })]
  | Tree.broken name => [(Join parent name, { name := name, walkErr := true, contents := none })]
  | Tree.dir name readable entries =>
    (Join parent name, { name := name, walkErr := !readable, contents := none }) ::
      (if readable then walkEntriesList (Join parent name) entries else [])
/-- The entries of the trees of a list below the directory `parent`. -/
def walkEntriesList (parent : String) : List Tree → List (String × Visit)
  | [] => []
  | t :: ts => t.walkEntries parent ++ walkEntriesList parent ts
end

/-! ## Example worlds -/

/-- A response with status 200 and the given body. -/
def okResponse (data : Bytes) : Response :=
  { StatusCode := 200, Status := "200 OK", body := { data := data, readErr := false } }

/-- An outside world in which every request fails, with the clock at one
day past the Unix epoch. -/
def quietEnv : Env :=
  { http := fun _ => none
    unmarshal := fun _ => none
    gunzipTar := fun _ => none
    exec := fun _ fs => (false, fs)
    getenv := fun _ => ""
    now := 86400 * 1000000000
    umask := 0o022
    tempDir := "/tmp"
    lstatTree := fun _ _ => Tree.broken ""
    fmtSprintf := fun format _ => format }

/-- An outside world whose release-metadata endpoint answers 200 with a body
that decodes to `info`. -/
def releaseEnv (info : apiInfo) : Env :=
  { quietEnv with
    http := fun url => if url = repoURL then some (okResponse [123, 125]) else none
    unmarshal := fun _ => some info }

/-- A client on which nothing was resolved yet. -/
def emptyClient : Client :=
  { cpxReleaseVersion := "", cpxReleaseDownloadURL := "", cpxReleaseUpdatedAt := zeroTime,
    cpxResourcesDownloadURL := "" }

/-- A file system that holds the directories `/` and `/tmp` only. -/
def bareFS : FS := fun p => if p = "/" ∨ p = "/tmp" then some (Node.dir 0) else none

/-- The state of a fresh process on `bareFS`. -/
def freshState : State :=
  { client := emptyClient, fs := bareFS, localFile := "/tmp/istio-1.3.0.tar.gz",
    cpxIstioLocalFile := "/tmp/citrix-istio-adaptor-1.1.0-beta.tar.gz", trace := [] }

/-- The metadata of the scenario of the specification. -/
def scenarioInfo : apiInfo :=
  { TagName := "1.3.0", PreRelease := false
    Assets := some [some
      { Name := "istio-1.3.0-linux.tar.gz", State := "uploaded", DownloadURL := "http://x/f.tar.gz" }] }

/-- Metadata whose one asset has the suffix text twice in its name. -/
def doubledInfo : apiInfo :=
  { TagName := "1.3.0", PreRelease := false
    Assets := some [some
      { Name := "istio-linux.tar.gz-linux.tar.gz", State := "uploaded",
        DownloadURL := "http://x/g.tar.gz" }] }

/-- An outside world in which every URL answers `404 Not Found`. -/
def notFoundEnv : Env :=
  { quietEnv with
    http := fun _ =>
      some { StatusCode := 404, Status := "404 Not Found",
             body := { data := [110, 111], readErr := false } } }

/-- An outside world that serves the one-byte template `T` at
`http://x/gw.tmpl` and whose render script exits with status 0 after writing
the one-byte manifest `Y` to the path given as `--outputfile`. -/
def renderEnv : Env :=
  { quietEnv with
    http := fun url => if url = "http://x/gw.tmpl" then some (okResponse [84]) else none
    exec := fun argv fs =>
      match argv with
      | [_, _, _, _, _, out] =>
        (true, fs.set out (Node.file { data := [89], mode := 0o644, modTime := 0 }))
      | _ => (false, fs) }

/-- The state of a fresh process on a file system that holds the render
script as well. -/
def renderState : State :=
  { freshState with
    fs := bareFS.set (cpxGenerateYamlScript renderEnv)
      (Node.file { data := [35], mode := 0o755, modTime := 0 }) }

/-- An archive with the directory entries `a/` and `a/b/` and the regular
file `a/b/c.yaml`, two bytes long and with mode `0600`. -/
def roundTripArchive : TarStream :=
  { entries :=
      [{ header := { Name := "a/", Typeflag := Typeflag.TypeDir, Mode := 0o755 },
         data := [], readErr := false },
       { header := { Name := "a/b/", Typeflag := Typeflag.TypeDir, Mode := 0o755 },
         data := [], readErr := false },
       { header := { Name := "a/b/c.yaml", Typeflag := Typeflag.TypeReg, Mode := 0o600 },
         data := [65, 66], readErr := false }]
    corrupt := false }

/-- An outside world with a zero creation mask in which every archive file
decodes to `roundTripArchive`. -/
def roundTripEnv : Env :=
  { quietEnv with gunzipTar := fun _ => some roundTripArchive, umask := 0 }

/-- The state of a fresh process that finds the archive `/tmp/new.tar.gz` and
no destination directory yet. -/
def firstExtractState : State :=
  { freshState with
    fs := bareFS.set "/tmp/new.tar.gz"
      (Node.file { data := [31, 139], mode := 0o644, modTime := 0 }) }

/-- The state after an earlier extraction into `/tmp/istio` that left a file
of four bytes and mode `0644` at `a/b/c.yaml`; the archive is
`/tmp/new.tar.gz`. -/
def reExtractState : State :=
  { freshState with
    fs := (((((bareFS.set "/tmp/istio" (Node.dir 0)).set "/tmp/istio/a" (Node.dir 0)).set
      "/tmp/istio/a/b" (Node.dir 0)).set "/tmp/istio/a/b/c.yaml"
      (Node.file { data := [88, 89, 90, 87], mode := 0o644, modTime := 0 })).set
      "/tmp/new.tar.gz" (Node.file { data := [31, 139], mode := 0o644, modTime := 0 })) }

/-- An outside world whose release-metadata endpoint answers with the
scenario of the specification and in which every archive file decodes to
`roundTripArchive`; the download URL itself does not answer. -/
def cachedEnv : Env :=
  { releaseEnv scenarioInfo with gunzipTar := fun _ => some roundTripArchive }

/-- The state of a fresh process that finds an archive at `localFile` which
was modified one hour before the clock value of `quietEnv`. -/
def cachedState : State :=
  { freshState with
    fs := bareFS.set "/tmp/istio-1.3.0.tar.gz"
      (Node.file { data := [31, 139], mode := 0o644, modTime := 82800 * 1000000000 }) }

/-- The state that the release resolution leaves of `cachedState`. -/
def cachedResolved : State := (getLatestReleaseURL cachedEnv cachedState).2

/-- An outside world in which the bypass archive decodes to
`roundTripArchive` and `ISTIO_VERSION` is set to `istio-1.3.0`. -/
def bypassEnv : Env :=
  { roundTripEnv with getenv := fun k => if k = "ISTIO_VERSION" then "istio-1.3.0" else "" }

/-- The state of a fresh process that finds the bypass file. -/
def bypassState : State :=
  { freshState with
    fs := (bareFS.set "/app" (Node.dir 0)).set localByPassFile
      (Node.file { data := [31, 139], mode := 0o644, modTime := 0 }) }

/-- Metadata whose asset list is the one JSON `null`. -/
def nullInfo : apiInfo :=
  { TagName := "1.3.0", PreRelease := false, Assets := some [none] }

/-- An outside world in which every URL answers `500 Internal Server Error`. -/
def serverErrorEnv : Env :=
  { quietEnv with
    http := fun _ =>
      some { StatusCode := 500, Status := "500 Internal Server Error",
             body := { data := [], readErr := false } } }

/-- The tree of the scenario of the specification: a directory with the
entries `crd-a.yaml`, `crd-b.yaml` and `other.txt`. -/
def scenarioTree : Tree :=
  Tree.dir "files" true
    [Tree.file "crd-a.yaml" (some [97]), Tree.file "crd-b.yaml" (some [98]),
     Tree.file "other.txt" (some [111])]

/-- A directory in which `Lstat` fails on the entry `crd-a.yaml`. -/
def brokenEntryTree : Tree :=
  Tree.dir "files" true [Tree.broken "crd-a.yaml", Tree.file "crd-b.yaml" (some [98])]

/-- A directory in which `crd-a.yaml` can be read and `crd-b.yaml` cannot. -/
def failedReadTree : Tree :=
  Tree.dir "files" true [Tree.file "crd-a.yaml" (some [97]), Tree.file "crd-b.yaml" none]

/-- The outside world of `bypassEnv` in which the walk finds the tree `t`. -/
def crdEnv (t : Tree) : Env := { bypassEnv with lstatTree := fun _ _ => t }

/-- The CRD folder of the release `istio-1.3.0` below the temporary directory
`/tmp`. -/
def crdStartFolder : String := "/tmp/istio/istio-1.3.0/install/kubernetes/helm/istio-init/files"

/-- The outside world of `bypassEnv` in which the tree `t` is at
`crdStartFolder` and `Lstat` fails on every other root. -/
def crdEnvAt (t : Tree) : Env :=
  { bypassEnv with
    lstatTree := fun _ root => if root = crdStartFolder then t else Tree.broken "files" }

/-- The tree of the scenario of the specification with the entries of the
directory held in another order: `other.txt`, `crd-b.yaml`, `crd-a.yaml`. -/
def shuffledScenarioTree : Tree :=
  Tree.dir "files" true
    [Tree.file "other.txt" (some [111]), Tree.file "crd-b.yaml" (some [98]),
     Tree.file "crd-a.yaml" (some [97])]

/-- A tree in which every entry is readable and the directory `crds.yaml.d`
has a matching name. -/
def matchingDirTree : Tree :=
  Tree.dir "files" true [Tree.dir "crds.yaml.d" true [], Tree.file "crd-a.yaml" (some [97])]

/-- A tree with the file `sub.crd.yaml` and the directory `sub` that holds
the file `crd-z.yaml`. -/
def pathOrderTree : Tree :=
  Tree.dir "files" true
    [Tree.file "sub.crd.yaml" (some [2]), Tree.dir "sub" true [Tree.file "crd-z.yaml" (some [1])]]

/-! ## Theorems -/

/-- Comparing `time.Since(t)` with `cachePeriod` is comparing the exact
difference: saturation does not change the outcome. -/
theorem timeSince_gt_cachePeriod (now t : Int) :
    timeSince now t > cachePeriod ↔ now - t > cachePeriod := by
  unfold timeSince timeSub maxDuration minDuration cachePeriod
  norm_num
  split_ifs <;> constructor <;> intro h <;> omega

/-- On a list without nil entries the scan returns the client updated from
the first asset whose name has the suffix. -/
theorem scanAssets_map_some (now : Int) (c : Client) (assets : List asset) :
    scanAssets now c (assets.map some) =
      Outcome.ret ((assets.find? (fun a => HasSuffix a.Name urlSuffix)).map (fun a =>
        { c with
          cpxReleaseVersion := Replace a.Name urlSuffix ""
          cpxReleaseDownloadURL := a.DownloadURL
          cpxReleaseUpdatedAt := now })) := by
  induction assets with
  | nil => rfl
  | cons a rest ih =>
    by_cases h : HasSuffix a.Name urlSuffix = true
    · simp [scanAssets, List.find?, h]
    · simp only [Bool.not_eq_true] at h
      simp [scanAssets, List.find?, h, ih]

/-- C1: when the release cache is empty or older than six hours and the
metadata endpoint answers 200 with a body that decodes to an asset list
without nil entries in which some name ends in `-linux.tar.gz`,
`getLatestReleaseURL` returns nil and stores the download URL of the first
asset in list order whose name ends in that suffix. -/
theorem getLatestReleaseURL_first_match (env : Env) (s : State) (resp : Response)
    (info : apiInfo) (assets : List asset)
    (hcache : s.client.cpxReleaseDownloadURL = "" ∨
      env.now - s.client.cpxReleaseUpdatedAt > cachePeriod)
    (hresp : env.http repoURL = some resp) (hstatus : resp.StatusCode = 200)
    (hbody : resp.body.readErr = false)
    (hjson : env.unmarshal resp.body.data = some info)
    (hassets : info.Assets = some (assets.map some))
    (hex : ∃ a ∈ assets, HasSuffix a.Name urlSuffix = true) :
    (getLatestReleaseURL env s).1 = Outcome.ret none ∧
      some (getLatestReleaseURL env s).2.client.cpxReleaseDownloadURL =
        (assets.find? (fun a => HasSuffix a.Name urlSuffix)).map (fun a => a.DownloadURL) := by
  have hc : s.client.cpxReleaseDownloadURL = "" ∨
      timeSince env.now s.client.cpxReleaseUpdatedAt > cachePeriod := by
    rcases hcache with h | h
    · exact Or.inl h
    · exact Or.inr ((timeSince_gt_cachePeriod _ _).2 h)
  obtain ⟨a, ha, hsuf⟩ := hex
  obtain ⟨b, hb⟩ : ∃ b, assets.find? (fun a => HasSuffix a.Name urlSuffix) = some b := by
    cases hf : assets.find? (fun a => HasSuffix a.Name urlSuffix) with
    | some b => exact ⟨b, rfl⟩
    | none =>
      have := List.find?_eq_none.1 hf a ha
      simp [hsuf] at this
  unfold getLatestReleaseURL
  rw [if_pos hc]
  simp only [hresp, hstatus, hbody, hjson, hassets, scanAssets_map_some, hb]
  simp

/-- The scenario of the specification as an instance of C1: the one asset
`istio-1.3.0-linux.tar.gz` gives the URL `http://x/f.tar.gz`. -/
theorem getLatestReleaseURL_first_match_witness :
    (getLatestReleaseURL (releaseEnv scenarioInfo) freshState).1 = Outcome.ret none ∧
      some (getLatestReleaseURL (releaseEnv scenarioInfo) freshState).2.client.cpxReleaseDownloadURL =
        some "http://x/f.tar.gz" :=
  getLatestReleaseURL_first_match (releaseEnv scenarioInfo) freshState (okResponse [123, 125])
    scenarioInfo
    [{ Name := "istio-1.3.0-linux.tar.gz", State := "uploaded", DownloadURL := "http://x/f.tar.gz" }]
    (Or.inl rfl) (by decide) (by decide) rfl rfl rfl ⟨_, List.mem_singleton.2 rfl, by decide⟩

/-- C2: on the asset name `istio-linux.tar.gz-linux.tar.gz`, which ends in
the suffix and holds its text once more before, `getLatestReleaseURL`
returns nil and stores the version `istio`: both occurrences are removed, and
the stored version followed by the suffix is not the asset name.  On the name
`istio-1.3.0-linux.tar.gz` of the scenario the stored version is
`istio-1.3.0`. -/
theorem getLatestReleaseURL_version_doubled_suffix :
    HasSuffix "istio-linux.tar.gz-linux.tar.gz" urlSuffix = true ∧
      (getLatestReleaseURL (releaseEnv doubledInfo) freshState).1 = Outcome.ret none ∧
      (getLatestReleaseURL (releaseEnv doubledInfo) freshState).2.client.cpxReleaseVersion =
        "istio" ∧
      (getLatestReleaseURL (releaseEnv doubledInfo) freshState).2.client.cpxReleaseVersion ++
        "-linux.tar.gz" ≠ "istio-linux.tar.gz-linux.tar.gz" ∧
      (getLatestReleaseURL (releaseEnv scenarioInfo) freshState).2.client.cpxReleaseVersion =
        "istio-1.3.0" := by
  decide

/-- C3: for every response whose status code is not 200,
`downloadFileFromURL` returns nil, since `errors.Wrapf` is applied to the nil
error of the successful `http.Get`; the file system is left as it was, and
the only call recorded is the GET. -/
theorem downloadFileFromURL_non200_returns_nil (env : Env) (s : State)
    (filepath fileURL : String) (resp : Response)
    (hresp : env.http fileURL = some resp) (hstatus : resp.StatusCode ≠ 200) :
    downloadFileFromURL env s filepath fileURL = (none, s.log (Event.httpGet fileURL)) ∧
      (downloadFileFromURL env s filepath fileURL).2.fs = s.fs := by
  unfold downloadFileFromURL
  simp only [hresp, if_neg hstatus]
  exact ⟨rfl, rfl⟩

/-- C3 at a `404 Not Found` answer: the call returns nil and the destination
does not exist afterwards. -/
theorem downloadFileFromURL_non200_returns_nil_witness :
    downloadFileFromURL notFoundEnv freshState "/tmp/gw.tmpl" "http://x/gw.tmpl" =
        (none, freshState.log (Event.httpGet "http://x/gw.tmpl")) ∧
      (downloadFileFromURL notFoundEnv freshState "/tmp/gw.tmpl" "http://x/gw.tmpl").2.fs =
        freshState.fs :=
  downloadFileFromURL_non200_returns_nil notFoundEnv freshState "/tmp/gw.tmpl" "http://x/gw.tmpl"
    { StatusCode := 404, Status := "404 Not Found", body := { data := [110, 111], readErr := false } }
    rfl (by decide)

/-- C4: with the template `T` downloaded to `/tmp/gw.tmpl` and the render
script exiting 0 after writing the manifest `Y` to `/tmp/gw.yaml`,
`getCpxYamlContent` returns `T`, the contents of the template, and not `Y`,
the contents of the rendered file. -/
theorem getCpxYamlContent_returns_template :
    HasSuffix "/tmp/gw.tmpl" ".tmpl" = true ∧
      (downloadFileFromURL renderEnv renderState "/tmp/gw.tmpl" "http://x/gw.tmpl").1 = none ∧
      (runGenerateYamlScript renderEnv
        (downloadFileFromURL renderEnv renderState "/tmp/gw.tmpl" "http://x/gw.tmpl").2
        "/tmp/gw.tmpl").1 = ("/tmp/gw.yaml", none) ∧
      (getCpxYamlContent renderEnv renderState "/tmp/gw.tmpl" "http://x/gw.tmpl").1 =
        ([84], none) ∧
      ReadFile (getCpxYamlContent renderEnv renderState "/tmp/gw.tmpl" "http://x/gw.tmpl").2.fs
        "/tmp/gw.yaml" = some [89] ∧
      ReadFile (getCpxYamlContent renderEnv renderState "/tmp/gw.tmpl" "http://x/gw.tmpl").2.fs
        "/tmp/gw.tmpl" = some [84] := by
  decide

/-- C5: extracting an archive whose entry `a/b/c.yaml` has the bytes `AB` and
mode `0600` over an earlier extraction that left the bytes `XYZW` with mode
`0644` at that path returns nil and leaves the bytes `ABZW` with mode `0644`:
the file is opened without truncation and keeps its mode.  Into a destination
that does not exist yet the same archive is extracted as the bytes `AB` with
mode `0600`. -/
theorem untarPackage_keeps_old_tail_and_mode :
    (untarPackage roundTripEnv reExtractState "/tmp/istio" "/tmp/new.tar.gz").1 = none ∧
      (untarPackage roundTripEnv reExtractState "/tmp/istio" "/tmp/new.tar.gz").2.fs
          "/tmp/istio/a/b/c.yaml" =
        some (Node.file { data := [65, 66, 90, 87], mode := 0o644,
                          modTime := roundTripEnv.now }) ∧
      (untarPackage roundTripEnv firstExtractState "/tmp/istio" "/tmp/new.tar.gz").1 = none ∧
      (untarPackage roundTripEnv firstExtractState "/tmp/istio" "/tmp/new.tar.gz").2.fs
          "/tmp/istio/a/b/c.yaml" =
        some (Node.file { data := [65, 66], mode := 0o600, modTime := roundTripEnv.now }) := by
  decide

/-- What `untarPackage` leaves of the state apart from the file system: one
more event, and the client and the path variable as they were. -/
theorem untarPackage_frame (env : Env) (s : State) (d f : String) :
    (untarPackage env s d f).2.trace = s.trace ++ [Event.untarPackage d f] ∧
      (untarPackage env s d f).2.client = s.client ∧
      (untarPackage env s d f).2.localFile = s.localFile := by
  unfold untarPackage
  dsimp only
  split
  · split <;> simp [State.log]
  · simp [State.log]
  · simp [State.log]

/-- What `downloadFile` leaves of the state apart from the file system: the
event of the call, followed by the GET if the file could be created, and the
client and the path variable as they were. -/
theorem downloadFile_frame (env : Env) (s : State) (url lf : String) :
    ((downloadFile env s url lf).2.trace = s.trace ++ [Event.downloadFile url lf] ∨
      (downloadFile env s url lf).2.trace =
        s.trace ++ [Event.downloadFile url lf, Event.httpGet url]) ∧
      (downloadFile env s url lf).2.client = s.client ∧
      (downloadFile env s url lf).2.localFile = s.localFile := by
  unfold downloadFile
  dsimp only
  split
  · simp [State.log]
  · split
    · simp [State.log]
    · split
      · simp [State.log]
      · split <;> simp [State.log]

/-- With no bypass file and a successful release resolution, `downloadCpx`
downloads when the flag `proceedWithDownload` is set and then, unless the
download returned an error, extracts. -/
theorem downloadCpx_resolved (env : Env) (s s1 : State)
    (hbypass : osStat s.fs localByPassFile = none)
    (hres : getLatestReleaseURL env s = (Outcome.ret none, s1)) :
    downloadCpx env s =
      match (if (match osStat s1.fs s1.localFile with
                | some lFileStat => decide (timeSince env.now lFileStat.modTime > cachePeriod)
                | none => true) = true
             then downloadFile env s1 s1.client.cpxReleaseDownloadURL s1.localFile
             else (none, s1)) with
      | (some err, s2) => (Outcome.ret ("", some err), s2)
      | (none, s2) =>
        match untarPackage env s2 (destinationFolder env) s2.localFile with
        | (some err, s3) => (Outcome.ret ("", some err), s3)
        | (none, s3) => (Outcome.ret (s1.client.cpxReleaseVersion, none), s3) := by
  unfold downloadCpx
  rw [hbypass]
  dsimp only
  rw [hres]

/-- The state after `downloadCpx` when the download is skipped. -/
theorem downloadCpx_fresh_state (env : Env) (s s1 : State)
    (hbypass : osStat s.fs localByPassFile = none)
    (hres : getLatestReleaseURL env s = (Outcome.ret none, s1))
    (hflag : (match osStat s1.fs s1.localFile with
      | some lFileStat => decide (timeSince env.now lFileStat.modTime > cachePeriod)
      | none => true) = false) :
    (downloadCpx env s).2 = (untarPackage env s1 (destinationFolder env) s1.localFile).2 := by
  rw [downloadCpx_resolved env s s1 hbypass hres, hflag]
  simp only [Bool.false_eq_true, if_false]
  rcases hu : untarPackage env s1 (destinationFolder env) s1.localFile with ⟨e, s3⟩
  cases e <;> rfl

/-- The state after `downloadCpx` when the download is issued and returns an
error: the state the download left, and that error as the result. -/
theorem downloadCpx_failed_download (env : Env) (s s1 : State) (err : Err)
    (hbypass : osStat s.fs localByPassFile = none)
    (hres : getLatestReleaseURL env s = (Outcome.ret none, s1))
    (hflag : (match osStat s1.fs s1.localFile with
      | some lFileStat => decide (timeSince env.now lFileStat.modTime > cachePeriod)
      | none => true) = true)
    (hdl : (downloadFile env s1 s1.client.cpxReleaseDownloadURL s1.localFile).1 = some err) :
    downloadCpx env s =
      (Outcome.ret ("", some err),
        (downloadFile env s1 s1.client.cpxReleaseDownloadURL s1.localFile).2) := by
  rw [downloadCpx_resolved env s s1 hbypass hres, hflag]
  simp only [if_true]
  rcases hd : downloadFile env s1 s1.client.cpxReleaseDownloadURL s1.localFile with ⟨e, s2⟩
  rw [hd] at hdl
  simp only at hdl
  subst hdl
  rfl

/-- The state after `downloadCpx` when the download is issued and returns
nil: the state the extraction of the downloaded file left. -/
theorem downloadCpx_downloaded_state (env : Env) (s s1 : State)
    (hbypass : osStat s.fs localByPassFile = none)
    (hres : getLatestReleaseURL env s = (Outcome.ret none, s1))
    (hflag : (match osStat s1.fs s1.localFile with
      | some lFileStat => decide (timeSince env.now lFileStat.modTime > cachePeriod)
      | none => true) = true)
    (hdl : (downloadFile env s1 s1.client.cpxReleaseDownloadURL s1.localFile).1 = none) :
    (downloadCpx env s).2 =
      (untarPackage env (downloadFile env s1 s1.client.cpxReleaseDownloadURL s1.localFile).2
        (destinationFolder env) s1.localFile).2 := by
  have hlf := (downloadFile_frame env s1 s1.client.cpxReleaseDownloadURL s1.localFile).2.2
  rw [downloadCpx_resolved env s s1 hbypass hres, hflag]
  simp only [if_true]
  rcases hd : downloadFile env s1 s1.client.cpxReleaseDownloadURL s1.localFile with ⟨e, s2⟩
  rw [hd] at hdl hlf
  simp only at hdl hlf
  subst hdl
  simp only [hlf]
  rcases hu : untarPackage env s2 (destinationFolder env) s1.localFile with ⟨e, s3⟩
  cases e <;> rfl

/-- The flag `proceedWithDownload` is set exactly when `os.Stat(localFile)`
fails or the file was modified more than `cachePeriod` before now. -/
theorem proceedWithDownload_iff (env : Env) (s1 : State) :
    ((match osStat s1.fs s1.localFile with
      | some lFileStat => decide (timeSince env.now lFileStat.modTime > cachePeriod)
      | none => true) = true) ↔
      (osStat s1.fs s1.localFile = none ∨
        ∃ n, osStat s1.fs s1.localFile = some n ∧ env.now - n.modTime > cachePeriod) := by
  cases h : osStat s1.fs s1.localFile with
  | none => simp
  | some n => simp [timeSince_gt_cachePeriod]

/-- The flag `proceedWithDownload` is cleared exactly when `os.Stat(localFile)`
succeeds and the file was modified at most `cachePeriod` before now. -/
theorem proceedWithDownload_false_iff (env : Env) (s1 : State) :
    ((match osStat s1.fs s1.localFile with
      | some lFileStat => decide (timeSince env.now lFileStat.modTime > cachePeriod)
      | none => true) = false) ↔
      ∃ n, osStat s1.fs s1.localFile = some n ∧ env.now - n.modTime ≤ cachePeriod := by
  cases h : osStat s1.fs s1.localFile with
  | none => simp
  | some n => simp [timeSince_gt_cachePeriod]

/-- C6, amended: with no bypass file and a successful release resolution
that leaves the state `s1`, the events `downloadCpx` adds to the trace hold
the call of `downloadFile` to `localFile` if and only if `os.Stat(localFile)`
fails or the file was modified more than six hours before now; when the file
is at most six hours old the one event added is the extraction, so no
download is issued; and `untarPackage(destinationFolder, localFile)` is run
if and only if the download was skipped or returned nil. -/
theorem downloadCpx_staleness (env : Env) (s s1 : State)
    (hbypass : osStat s.fs localByPassFile = none)
    (hres : getLatestReleaseURL env s = (Outcome.ret none, s1)) :
    ∃ evs, (downloadCpx env s).2.trace = s1.trace ++ evs ∧
      (Event.downloadFile s1.client.cpxReleaseDownloadURL s1.localFile ∈ evs ↔
        (osStat s1.fs s1.localFile = none ∨
          ∃ n, osStat s1.fs s1.localFile = some n ∧ env.now - n.modTime > cachePeriod)) ∧
      ((∃ n, osStat s1.fs s1.localFile = some n ∧ env.now - n.modTime ≤ cachePeriod) →
        evs = [Event.untarPackage (destinationFolder env) s1.localFile]) ∧
      (Event.untarPackage (destinationFolder env) s1.localFile ∈ evs ↔
        ((∃ n, osStat s1.fs s1.localFile = some n ∧ env.now - n.modTime ≤ cachePeriod) ∨
          (downloadFile env s1 s1.client.cpxReleaseDownloadURL s1.localFile).1 = none)) := by
  have hfr := downloadFile_frame env s1 s1.client.cpxReleaseDownloadURL s1.localFile
  cases hflag : (match osStat s1.fs s1.localFile with
      | some lFileStat => decide (timeSince env.now lFileStat.modTime > cachePeriod)
      | none => true) with
  | false =>
    have hfresh := (proceedWithDownload_false_iff env s1).1 hflag
    have hnot : ¬ (osStat s1.fs s1.localFile = none ∨
        ∃ n, osStat s1.fs s1.localFile = some n ∧ env.now - n.modTime > cachePeriod) := by
      intro h
      have := (proceedWithDownload_iff env s1).2 h
      rw [hflag] at this
      exact Bool.false_ne_true this
    refine ⟨[Event.untarPackage (destinationFolder env) s1.localFile], ?_, ?_, ?_, ?_⟩
    · rw [downloadCpx_fresh_state env s s1 hbypass hres hflag]
      exact (untarPackage_frame env s1 _ _).1
    · simp [hnot]
    · intro _
      rfl
    · exact ⟨fun _ => Or.inl hfresh, fun _ => List.mem_singleton.2 rfl⟩
  | true =>
    have hstale := (proceedWithDownload_iff env s1).1 hflag
    have hnot : ¬ ∃ n, osStat s1.fs s1.localFile = some n ∧ env.now - n.modTime ≤ cachePeriod := by
      intro h
      have := (proceedWithDownload_false_iff env s1).2 h
      rw [hflag] at this
      exact Bool.false_ne_true this.symm
    cases hdl : (downloadFile env s1 s1.client.cpxReleaseDownloadURL s1.localFile).1 with
    | some err =>
      have hst := downloadCpx_failed_download env s s1 err hbypass hres hflag hdl
      rcases hfr.1 with htr | htr
      · refine ⟨[Event.downloadFile s1.client.cpxReleaseDownloadURL s1.localFile], ?_, ?_, ?_, ?_⟩
        · rw [hst]
          exact htr
        · simp [hstale]
        · intro h
          exact absurd h hnot
        · constructor
          · intro h
            simp at h
          · rintro (h | h)
            · exact absurd h hnot
            · cases h
      · refine ⟨[Event.downloadFile s1.client.cpxReleaseDownloadURL s1.localFile,
          Event.httpGet s1.client.cpxReleaseDownloadURL], ?_, ?_, ?_, ?_⟩
        · rw [hst]
          exact htr
        · simp [hstale]
        · intro h
          exact absurd h hnot
        · constructor
          · intro h
            simp at h
          · rintro (h | h)
            · exact absurd h hnot
            · cases h
    | none =>
      have hst := downloadCpx_downloaded_state env s s1 hbypass hres hflag hdl
      have hut := (untarPackage_frame env
        (downloadFile env s1 s1.client.cpxReleaseDownloadURL s1.localFile).2
        (destinationFolder env) s1.localFile).1
      rcases hfr.1 with htr | htr
      · refine ⟨[Event.downloadFile s1.client.cpxReleaseDownloadURL s1.localFile,
          Event.untarPackage (destinationFolder env) s1.localFile], ?_, ?_, ?_, ?_⟩
        · rw [hst, hut, htr]
          simp
        · simp [hstale]
        · intro h
          exact absurd h hnot
        · simp
      · refine ⟨[Event.downloadFile s1.client.cpxReleaseDownloadURL s1.localFile,
          Event.httpGet s1.client.cpxReleaseDownloadURL,
          Event.untarPackage (destinationFolder env) s1.localFile], ?_, ?_, ?_, ?_⟩
        · rw [hst, hut, htr]
          simp
        · simp [hstale]
        · intro h
          exact absurd h hnot
        · simp

/-- C6 at a cached archive that is one hour old: the one event added is the
extraction. -/
theorem downloadCpx_staleness_witness :
    osStat cachedState.fs localByPassFile = none ∧
      ∃ evs, (downloadCpx cachedEnv cachedState).2.trace = cachedResolved.trace ++ evs ∧
        (Event.downloadFile cachedResolved.client.cpxReleaseDownloadURL cachedResolved.localFile
            ∈ evs ↔
          (osStat cachedResolved.fs cachedResolved.localFile = none ∨
            ∃ n, osStat cachedResolved.fs cachedResolved.localFile = some n ∧
              cachedEnv.now - n.modTime > cachePeriod)) ∧
        ((∃ n, osStat cachedResolved.fs cachedResolved.localFile = some n ∧
            cachedEnv.now - n.modTime ≤ cachePeriod) →
          evs = [Event.untarPackage (destinationFolder cachedEnv) cachedResolved.localFile]) ∧
        (Event.untarPackage (destinationFolder cachedEnv) cachedResolved.localFile ∈ evs ↔
          ((∃ n, osStat cachedResolved.fs cachedResolved.localFile = some n ∧
              cachedEnv.now - n.modTime ≤ cachePeriod) ∨
            (downloadFile cachedEnv cachedResolved cachedResolved.client.cpxReleaseDownloadURL
              cachedResolved.localFile).1 = none)) :=
  ⟨by decide,
    downloadCpx_staleness cachedEnv cachedState cachedResolved (by decide)
      (Prod.ext (by decide) rfl)⟩

/-- C6 as stated fails: with no bypass file, a successful release resolution
and no cached archive, the download is issued, its GET fails, and
`downloadCpx` returns that error without running `untarPackage`. -/
theorem downloadCpx_failed_download_not_extracted :
    osStat freshState.fs localByPassFile = none ∧
      (getLatestReleaseURL (releaseEnv scenarioInfo) freshState).1 = Outcome.ret none ∧
      osStat (getLatestReleaseURL (releaseEnv scenarioInfo) freshState).2.fs
        "/tmp/istio-1.3.0.tar.gz" = none ∧
      (downloadCpx (releaseEnv scenarioInfo) freshState).2.trace =
        [Event.httpGet repoURL,
         Event.downloadFile "http://x/f.tar.gz" "/tmp/istio-1.3.0.tar.gz",
         Event.httpGet "http://x/f.tar.gz"] ∧
      Event.untarPackage (destinationFolder (releaseEnv scenarioInfo)) "/tmp/istio-1.3.0.tar.gz" ∉
        (downloadCpx (releaseEnv scenarioInfo) freshState).2.trace ∧
      (downloadCpx (releaseEnv scenarioInfo) freshState).1 =
        Outcome.ret ("", some (Err.wrap (Err.sys "http.Get" "http://x/f.tar.gz")
          "unable to download the file from URL: http://x/f.tar.gz")) := by
  decide

/-- A path that was set names what it was set to. -/
theorem FS_set_same (fs : FS) (p : String) (n : Node) : (fs.set p n) p = some n := by
  simp [FS.set]

/-- Setting a path leaves every other path as it was. -/
theorem FS_set_other (fs : FS) (p q : String) (n : Node) (h : q ≠ p) : (fs.set p n) q = fs q := by
  simp [FS.set, h]

/-- A file system adds no directory to itself. -/
theorem OnlyAddsDirs.refl (env : Env) (fs : FS) : OnlyAddsDirs env fs fs :=
  fun _ => Or.inl rfl

/-- Adding directories twice is adding directories. -/
theorem OnlyAddsDirs.trans {env : Env} {fs fs1 fs2 : FS} (h1 : OnlyAddsDirs env fs fs1)
    (h2 : OnlyAddsDirs env fs1 fs2) : OnlyAddsDirs env fs fs2 := by
  intro q
  rcases h2 q with h | ⟨hn, hd⟩
  · rw [h]
    exact h1 q
  · rcases h1 q with h | ⟨_, hd1⟩
    · exact Or.inr ⟨h ▸ hn, hd⟩
    · rw [hd1] at hn
      cases hn

/-- A successful `os.Mkdir` only adds a directory at a path that held nothing. -/
theorem osMkdir_effect (env : Env) (fs fs1 : FS) (p : String) (h : osMkdir env fs p = some fs1) :
    OnlyAddsDirs env fs fs1 := by
  intro q
  unfold osMkdir at h
  cases hp : fs p with
  | some n => rw [hp] at h; cases h
  | none =>
    rw [hp] at h
    simp only at h
    split at h
    · cases h
      by_cases hq : q = p
      · subst hq
        exact Or.inr ⟨hp, FS_set_same _ _ _⟩
      · exact Or.inl (FS_set_other _ _ _ _ hq)
    · cases h

/-- The recursion of `os.MkdirAll` only adds directories at paths that held
nothing. -/
theorem mkdirAllAux_effect (env : Env) (rooted : Bool) (comps : List (List Char)) :
    ∀ (fs : FS), OnlyAddsDirs env fs (mkdirAllAux env rooted comps fs).2 := by
  induction comps with
  | nil => intro fs; exact OnlyAddsDirs.refl env fs
  | cons elem above ih =>
    intro fs
    unfold mkdirAllAux
    dsimp only
    split
    · exact OnlyAddsDirs.refl env fs
    · have hpar : OnlyAddsDirs env fs
          (if above = [] then (true, fs) else mkdirAllAux env rooted above fs).2 := by
        split
        · exact OnlyAddsDirs.refl env fs
        · exact ih fs
      generalize (if above = [] then (true, fs) else mkdirAllAux env rooted above fs) = par at hpar
      rcases par with ⟨ok, fs1⟩
      cases ok with
      | false => exact hpar
      | true =>
        simp only [if_true]
        cases hmk : osMkdir env fs1
            ((if rooted = true then "/" else "") ++
              String.mk (List.intercalate ['/'] (elem :: above).reverse)) with
        | none => exact hpar
        | some fs2 => exact hpar.trans (osMkdir_effect env fs1 fs2 _ hmk)

/-- The call `os.MkdirAll` only adds directories at paths that held nothing. -/
theorem MkdirAll_effect (env : Env) (fs : FS) (p : String) :
    OnlyAddsDirs env fs (MkdirAll env fs p).2 := by
  unfold MkdirAll
  exact mkdirAllAux_effect env _ _ fs

/-- A successful `os.OpenFile` without `O_TRUNC` finds a regular file and
leaves the file system as it is, or finds nothing and makes an empty file
with the permissions asked for less the creation mask. -/
theorem osOpenFile_some (env : Env) (fs fs1 : FS) (p : String) (perm : Nat)
    (h : osOpenFile env fs p false perm = some fs1) :
    (∃ g, fs p = some (Node.file g) ∧ fs1 = fs) ∨
      (fs p = none ∧ fs1 = fs.set p (Node.file
        { data := [], mode := createMode env.umask (syscallMode perm), modTime := env.now })) := by
  unfold osOpenFile at h
  cases hp : fs p with
  | none =>
    rw [hp] at h
    simp only at h
    split at h
    · cases h
      exact Or.inr ⟨rfl, rfl⟩
    · cases h
  | some n =>
    rw [hp] at h
    cases n with
    | file g =>
      simp only [Bool.false_eq_true, if_false] at h
      cases h
      exact Or.inl ⟨g, rfl, rfl⟩
    | dir t => cases h
    | denied => cases h

/-- Writing to a file leaves every other path as it was. -/
theorem writeFromStart_other (env : Env) (fs : FS) (p q : String) (data : Bytes) (h : q ≠ p) :
    writeFromStart env fs p data q = fs q := by
  unfold writeFromStart
  cases hp : fs p with
  | none => rfl
  | some n =>
    cases n with
    | file g =>
      simp only
      split
      · rfl
      · exact FS_set_other _ _ _ _ h
    | dir t => rfl
    | denied => rfl

/-- Writing to a regular file puts the bytes written at its start; written to
an empty file they are its contents, and its mode stays. -/
theorem writeFromStart_file (env : Env) (fs : FS) (p : String) (data : Bytes) (g : File)
    (h : fs p = some (Node.file g)) :
    ∃ g1, writeFromStart env fs p data p = some (Node.file g1) ∧ data <+: g1.data ∧
      (g.data = [] → g1.data = data ∧ g1.mode = g.mode ∧
        (g.modTime = env.now → g1.modTime = env.now)) := by
  unfold writeFromStart
  rw [h]
  simp only
  by_cases hd : data = []
  · rw [if_pos hd, h]
    refine ⟨g, rfl, ?_, ?_⟩
    · rw [hd]
      exact List.nil_prefix
    · intro hg
      exact ⟨hg.trans hd.symm, rfl, fun ht => ht⟩
  · rw [if_neg hd, FS_set_same]
    refine ⟨_, rfl, ?_, ?_⟩
    · exact List.prefix_append _ _
    · intro hg
      simp [hg]

/-- When the loop of `untarPackage` returns nil, it has gone on after its
first entry, and that entry has changed no path but the one a regular file
is extracted to, apart from adding directories at paths that held nothing. -/
theorem untarLoop_cons_ok (env : Env) (d : String) (c : Bool) (x : TarEntry)
    (rest : List TarEntry) (fs fs2 : FS)
    (h : untarLoop env d c (x :: rest) fs = (none, fs2)) :
    ∃ fs1, untarLoop env d c rest fs1 = (none, fs2) ∧
      ∀ q, (x.header.Typeflag = Typeflag.TypeReg → Join d x.header.Name ≠ q) →
        (fs1 q = fs q ∨ (fs q = none ∧ fs1 q = some (Node.dir env.now))) := by
  unfold untarLoop at h
  dsimp only at h
  cases hty : x.header.Typeflag with
  | TypeDir =>
    rw [hty] at h
    simp only at h
    cases hst : osStat fs (Join d x.header.Name) with
    | some n =>
      rw [hst] at h
      exact ⟨fs, h, fun q _ => Or.inl rfl⟩
    | none =>
      rw [hst] at h
      simp only at h
      have heff := MkdirAll_effect env fs (Join d x.header.Name)
      rcases hmk : MkdirAll env fs (Join d x.header.Name) with ⟨ok, fs1⟩
      rw [hmk] at h heff
      cases ok with
      | true => exact ⟨fs1, h, fun q _ => heff q⟩
      | false =>
        simp [errorsWrapf] at h
  | TypeReg =>
    rw [hty] at h
    simp only at h
    cases hop : osOpenFile env fs (Join d x.header.Name) false (fileModeOf x.header.Mode) with
    | none =>
      rw [hop] at h
      simp [errorsWrapf] at h
    | some fs1 =>
      rw [hop] at h
      simp only at h
      cases hre : x.readErr with
      | true =>
        rw [hre] at h
        simp [errorsWrapf] at h
      | false =>
        rw [hre] at h
        simp only [Bool.false_eq_true, if_false] at h
        refine ⟨_, h, fun q hq => Or.inl ?_⟩
        have hne : q ≠ Join d x.header.Name := fun e => hq rfl e.symm
        rw [writeFromStart_other env fs1 _ q x.data hne]
        rcases osOpenFile_some env fs fs1 _ _ hop with ⟨g, _, hfs⟩ | ⟨_, hfs⟩
        · rw [hfs]
        · rw [hfs]
          exact FS_set_other _ _ _ _ hne
  | other =>
    rw [hty] at h
    exact ⟨fs, h, fun q _ => Or.inl rfl⟩

/-- When the loop of `untarPackage` returns nil on a regular-file entry, it
has opened the target and has gone on after writing the bytes of the entry
to it. -/
theorem untarLoop_reg_ok (env : Env) (d : String) (c : Bool) (x : TarEntry)
    (rest : List TarEntry) (fs fs2 : FS) (hty : x.header.Typeflag = Typeflag.TypeReg)
    (h : untarLoop env d c (x :: rest) fs = (none, fs2)) :
    ∃ fs1, osOpenFile env fs (Join d x.header.Name) false (fileModeOf x.header.Mode) = some fs1 ∧
      untarLoop env d c rest (writeFromStart env fs1 (Join d x.header.Name) x.data) =
        (none, fs2) := by
  unfold untarLoop at h
  dsimp only at h
  rw [hty] at h
  simp only at h
  cases hop : osOpenFile env fs (Join d x.header.Name) false (fileModeOf x.header.Mode) with
  | none =>
    rw [hop] at h
    simp [errorsWrapf] at h
  | some fs1 =>
    rw [hop] at h
    simp only at h
    cases hre : x.readErr with
    | true =>
      rw [hre] at h
      simp [errorsWrapf] at h
    | false =>
      rw [hre] at h
      simp only [Bool.false_eq_true, if_false] at h
      exact ⟨fs1, rfl, h⟩

/-- A regular file stays as it is while the loop of `untarPackage` handles
entries none of which is a regular file extracted to its path. -/
theorem untarLoop_keeps_file (env : Env) (d : String) (c : Bool) (target : String) (g : File) :
    ∀ (post : List TarEntry) (fs fs2 : FS), fs target = some (Node.file g) →
      (∀ x ∈ post, x.header.Typeflag = Typeflag.TypeReg → Join d x.header.Name ≠ target) →
      untarLoop env d c post fs = (none, fs2) → fs2 target = some (Node.file g) := by
  intro post
  induction post with
  | nil =>
    intro fs fs2 hfs _ h
    unfold untarLoop at h
    cases c with
    | true => simp [errorsWrapf] at h
    | false =>
      simp only [Bool.false_eq_true, if_false, Prod.mk.injEq, true_and] at h
      rw [← h]
      exact hfs
  | cons x post ih =>
    intro fs fs2 hfs hpost h
    obtain ⟨fs1, hrest, heff⟩ := untarLoop_cons_ok env d c x post fs fs2 h
    have hx := heff target (hpost x (List.mem_cons_self x post))
    have hfs1 : fs1 target = some (Node.file g) := by
      rcases hx with hx | ⟨hn, _⟩
      · rw [hx]
        exact hfs
      · rw [hfs] at hn
        cases hn
    exact ih fs1 fs2 hfs1 (fun y hy => hpost y (List.mem_cons_of_mem x hy)) hrest

/-- When the loop of `untarPackage` returns nil, a regular-file entry after
which no regular file is extracted to the same path has left a regular file
at `filepath.Join(destination, name)` that starts with the bytes of the
entry; and if the path held nothing or a directory before and no earlier
regular file is extracted to it, the file holds exactly those bytes, with the
mode of the header less the creation mask. -/
theorem untarLoop_extracts (env : Env) (d : String) (c : Bool) (e : TarEntry)
    (post : List TarEntry) (hty : e.header.Typeflag = Typeflag.TypeReg)
    (hpost : ∀ x ∈ post, x.header.Typeflag = Typeflag.TypeReg →
      Join d x.header.Name ≠ Join d e.header.Name) :
    ∀ (pre : List TarEntry) (fs fs2 : FS),
      untarLoop env d c (pre ++ e :: post) fs = (none, fs2) →
      ∃ g, fs2 (Join d e.header.Name) = some (Node.file g) ∧ e.data <+: g.data ∧
        ((fs (Join d e.header.Name) = none ∨ ∃ t, fs (Join d e.header.Name) = some (Node.dir t)) →
          (∀ x ∈ pre, x.header.Typeflag = Typeflag.TypeReg →
            Join d x.header.Name ≠ Join d e.header.Name) →
          g = { data := e.data,
                mode := createMode env.umask (syscallMode (fileModeOf e.header.Mode)),
                modTime := env.now }) := by
  intro pre
  induction pre with
  | nil =>
    intro fs fs2 h
    obtain ⟨fs1, hop, hrest⟩ := untarLoop_reg_ok env d c e post fs fs2 hty h
    rcases osOpenFile_some env fs fs1 _ _ hop with ⟨g0, hg0, hfs1⟩ | ⟨hnone, hfs1⟩
    · have hfile : fs1 (Join d e.header.Name) = some (Node.file g0) := by
        rw [hfs1]
        exact hg0
      obtain ⟨g1, hw, hpre, _⟩ := writeFromStart_file env fs1 _ e.data g0 hfile
      refine ⟨g1, untarLoop_keeps_file env d c _ g1 post _ fs2 hw hpost hrest, hpre, ?_⟩
      intro hfresh _
      rcases hfresh with hn | ⟨t, ht⟩
      · rw [hg0] at hn
        cases hn
      · rw [hg0] at ht
        cases ht
    · have hfile : fs1 (Join d e.header.Name) = some (Node.file
          { data := [], mode := createMode env.umask (syscallMode (fileModeOf e.header.Mode)),
            modTime := env.now }) := by
        rw [hfs1]
        exact FS_set_same _ _ _
      obtain ⟨g1, hw, hpre, hexact⟩ := writeFromStart_file env fs1 _ e.data _ hfile
      refine ⟨g1, untarLoop_keeps_file env d c _ g1 post _ fs2 hw hpost hrest, hpre, ?_⟩
      intro _ _
      obtain ⟨h1, h2, h3⟩ := hexact rfl
      cases g1 with
      | mk data mode modTime =>
        simp only at h1 h2 h3
        rw [h1, h2, h3 trivial]
  | cons x pre ih =>
    intro fs fs2 h
    rw [List.cons_append] at h
    obtain ⟨fs1, hrest, heff⟩ := untarLoop_cons_ok env d c x _ fs fs2 h
    obtain ⟨g, hg, hpre, hexact⟩ := ih fs1 fs2 hrest
    refine ⟨g, hg, hpre, ?_⟩
    intro hfresh hbefore
    apply hexact
    · rcases heff _ (hbefore x (List.mem_cons_self x pre)) with hx | ⟨_, hdir⟩
      · rw [hx]
        exact hfresh
      · exact Or.inr ⟨_, hdir⟩
    · exact fun y hy => hbefore y (List.mem_cons_of_mem x hy)

/-- The result of `untarPackage` on a regular file whose bytes decode to a tar
stream: the result of the loop over the entries of the stream. -/
theorem untarPackage_file (env : Env) (s : State) (d file : String) (f : File) (st : TarStream)
    (hfile : s.fs file = some (Node.file f)) (hdecode : env.gunzipTar f.data = some st) :
    (untarPackage env s d file).1 = (untarLoop env d st.corrupt st.entries s.fs).1 ∧
      (untarPackage env s d file).2.fs = (untarLoop env d st.corrupt st.entries s.fs).2 := by
  unfold untarPackage
  dsimp only
  have hfile1 : (s.log (Event.untarPackage d file)).fs file = some (Node.file f) := hfile
  rw [hfile1]
  simp only [hdecode]
  exact ⟨rfl, rfl⟩

/-- C7: when `os.Stat` of the bypass file succeeds, `downloadCpx` leaves the
state that `untarPackage(destinationFolder, localByPassFile)` leaves; the one
event it adds to the trace is that extraction, so no HTTP request and no
download is issued; the client is as it was; and when the extraction returns
nil the result is the value of `ISTIO_VERSION` and nil.  What is extracted
is the bypass file: whenever `downloadCpx` returns a nil error, every
regular-file entry of the archive that the bytes of the bypass file decode
to, after which no regular file is extracted to the same path, has left a
regular file at `filepath.Join(destinationFolder, name)` that starts with
the bytes of the entry, and that holds exactly those bytes, with the mode of
the header less the creation mask, if the path held nothing before and no
earlier regular file is extracted to it. -/
theorem downloadCpx_bypass (env : Env) (s : State) (n : Node)
    (hbypass : osStat s.fs localByPassFile = some n) :
    (downloadCpx env s).2 =
        (untarPackage env { s with localFile := localByPassFile } (destinationFolder env)
          localByPassFile).2 ∧
      (downloadCpx env s).2.trace =
        s.trace ++ [Event.untarPackage (destinationFolder env) localByPassFile] ∧
      (downloadCpx env s).2.client = s.client ∧
      ((untarPackage env { s with localFile := localByPassFile } (destinationFolder env)
          localByPassFile).1 = none →
        (downloadCpx env s).1 = Outcome.ret (env.getenv "ISTIO_VERSION", none)) ∧
      (∀ (f : File) (st : TarStream) (pre post : List TarEntry) (e : TarEntry) (v : String),
        s.fs localByPassFile = some (Node.file f) → env.gunzipTar f.data = some st →
        st.entries = pre ++ e :: post → e.header.Typeflag = Typeflag.TypeReg →
        (∀ x ∈ post, x.header.Typeflag = Typeflag.TypeReg →
          Join (destinationFolder env) x.header.Name ≠
            Join (destinationFolder env) e.header.Name) →
        (downloadCpx env s).1 = Outcome.ret (v, none) →
        v = env.getenv "ISTIO_VERSION" ∧
          ∃ g, (downloadCpx env s).2.fs (Join (destinationFolder env) e.header.Name) =
              some (Node.file g) ∧
            e.data <+: g.data ∧
            (s.fs (Join (destinationFolder env) e.header.Name) = none →
              (∀ x ∈ pre, x.header.Typeflag = Typeflag.TypeReg →
                Join (destinationFolder env) x.header.Name ≠
                  Join (destinationFolder env) e.header.Name) →
              g = { data := e.data,
                    mode := createMode env.umask (syscallMode (fileModeOf e.header.Mode)),
                    modTime := env.now })) := by
  have hfr := untarPackage_frame env { s with localFile := localByPassFile }
    (destinationFolder env) localByPassFile
  have hst : (downloadCpx env s).2 =
      (untarPackage env { s with localFile := localByPassFile } (destinationFolder env)
        localByPassFile).2 := by
    unfold downloadCpx
    rw [hbypass]
    dsimp only
    rcases hu : untarPackage env { s with localFile := localByPassFile } (destinationFolder env)
      localByPassFile with ⟨e, s2⟩
    cases e <;> rfl
  have hres : ∀ v, (downloadCpx env s).1 = Outcome.ret (v, none) →
      v = env.getenv "ISTIO_VERSION" ∧
        (untarPackage env { s with localFile := localByPassFile } (destinationFolder env)
          localByPassFile).1 = none := by
    intro v hv
    unfold downloadCpx at hv
    rw [hbypass] at hv
    dsimp only at hv
    rcases hu : untarPackage env { s with localFile := localByPassFile } (destinationFolder env)
      localByPassFile with ⟨e, s2⟩
    rw [hu] at hv
    cases e with
    | some err => simp at hv
    | none =>
      simp only [Outcome.ret.injEq, Prod.mk.injEq, and_true] at hv
      exact ⟨hv.symm, rfl⟩
  refine ⟨hst, ?_, ?_, ?_, ?_⟩
  · rw [hst]
    exact hfr.1
  · rw [hst]
    exact hfr.2.1
  · intro hok
    unfold downloadCpx
    rw [hbypass]
    dsimp only
    rcases hu : untarPackage env { s with localFile := localByPassFile } (destinationFolder env)
      localByPassFile with ⟨e, s2⟩
    rw [hu] at hok
    simp only at hok
    subst hok
    rfl
  · intro f st pre post e v hfile hdecode hentries hty hpost hv
    obtain ⟨hversion, hok⟩ := hres v hv
    have hup := untarPackage_file env { s with localFile := localByPassFile }
      (destinationFolder env) localByPassFile f st hfile hdecode
    rw [hup.1, hentries] at hok
    have hloop : untarLoop env (destinationFolder env) st.corrupt (pre ++ e :: post) s.fs =
        (none, (downloadCpx env s).2.fs) := by
      rw [hst, hup.2, hentries]
      exact Prod.ext hok rfl
    obtain ⟨g, hg, hpre, hexact⟩ :=
      untarLoop_extracts env (destinationFolder env) st.corrupt e post hty hpost pre s.fs _ hloop
    exact ⟨hversion, g, hg, hpre, fun hnone hbefore => hexact (Or.inl hnone) hbefore⟩

/-- C7 with the bypass file in place and `ISTIO_VERSION=istio-1.3.0`: the
one event is the extraction of the bypass file, the client stays empty, the
version returned is `istio-1.3.0`, and the entry `a/b/c.yaml` of the bypass
archive, with the bytes `AB` and mode `0600`, is at `/tmp/istio/a/b/c.yaml`. -/
theorem downloadCpx_bypass_witness :
    osStat bypassState.fs localByPassFile =
        some (Node.file { data := [31, 139], mode := 0o644, modTime := 0 }) ∧
      (downloadCpx bypassEnv bypassState).2.trace =
        [Event.untarPackage "/tmp/istio" "/app/istio-1.3.0.tar.gz"] ∧
      (downloadCpx bypassEnv bypassState).2.client = emptyClient ∧
      (downloadCpx bypassEnv bypassState).1 = Outcome.ret ("istio-1.3.0", none) ∧
      (downloadCpx bypassEnv bypassState).2.fs "/tmp/istio/a/b/c.yaml" =
        some (Node.file { data := [65, 66], mode := 0o600, modTime := bypassEnv.now }) := by
  have h := downloadCpx_bypass bypassEnv bypassState
    (Node.file { data := [31, 139], mode := 0o644, modTime := 0 }) (by decide)
  obtain ⟨_, g, hg, _, hexact⟩ := h.2.2.2.2
    { data := [31, 139], mode := 0o644, modTime := 0 } roundTripArchive
    [{ header := { Name := "a/", Typeflag := Typeflag.TypeDir, Mode := 0o755 },
       data := [], readErr := false },
     { header := { Name := "a/b/", Typeflag := Typeflag.TypeDir, Mode := 0o755 },
       data := [], readErr := false }]
    []
    { header := { Name := "a/b/c.yaml", Typeflag := Typeflag.TypeReg, Mode := 0o600 },
      data := [65, 66], readErr := false }
    "istio-1.3.0" (by decide) rfl rfl rfl (by decide) (by decide)
  have hfile : (downloadCpx bypassEnv bypassState).2.fs "/tmp/istio/a/b/c.yaml" =
      some (Node.file g) := hg
  refine ⟨by decide, h.2.1, h.2.2.1, h.2.2.2.1 (by decide), ?_⟩
  rw [hfile, hexact (by decide) (by decide)]
  rfl

/-- Failure atomicity away from nil assets: when the release cache is empty or
older than six hours and the metadata endpoint answers with a status other
than 200, or with a body that cannot be read or decoded, or with a decoded
answer whose asset list is absent, empty or, having no nil entry, holds no
name ending in `-linux.tar.gz`, then `getLatestReleaseURL` returns a non-nil
error and leaves the client fields as they were. -/
theorem getLatestReleaseURL_failure_atomic (env : Env) (s : State) (resp : Response)
    (hcache : s.client.cpxReleaseDownloadURL = "" ∨
      env.now - s.client.cpxReleaseUpdatedAt > cachePeriod)
    (hresp : env.http repoURL = some resp)
    (hfail : resp.StatusCode ≠ 200 ∨ resp.body.readErr = true ∨
      env.unmarshal resp.body.data = none ∨
      ∃ info, env.unmarshal resp.body.data = some info ∧
        (info.Assets = none ∨
          ∃ assets : List asset, info.Assets = some (assets.map some) ∧
            ∀ a ∈ assets, HasSuffix a.Name urlSuffix = false)) :
    (∃ err, (getLatestReleaseURL env s).1 = Outcome.ret (some err)) ∧
      (getLatestReleaseURL env s).2.client = s.client := by
  have hc : s.client.cpxReleaseDownloadURL = "" ∨
      timeSince env.now s.client.cpxReleaseUpdatedAt > cachePeriod := by
    rcases hcache with h | h
    · exact Or.inl h
    · exact Or.inr ((timeSince_gt_cachePeriod _ _).2 h)
  unfold getLatestReleaseURL
  rw [if_pos hc]
  simp only [hresp]
  by_cases hst : resp.StatusCode = 200
  · rw [if_neg (not_not.2 hst)]
    cases hre : resp.body.readErr with
    | true => exact ⟨⟨_, rfl⟩, rfl⟩
    | false =>
      simp only [Bool.false_eq_true, if_false]
      rcases hfail with h | h | h | ⟨info, hinfo, h⟩
      · exact absurd hst h
      · rw [hre] at h
        cases h
      · rw [h]
        exact ⟨⟨_, rfl⟩, rfl⟩
      · rw [hinfo]
        rcases h with h | ⟨assets, hassets, hnone⟩
        · simp only [h]
          exact ⟨⟨_, rfl⟩, rfl⟩
        · have hfind : assets.find? (fun a => HasSuffix a.Name urlSuffix) = none := by
            rw [List.find?_eq_none]
            intro a ha
            simp [hnone a ha]
          simp only [hassets, scanAssets_map_some, hfind, Option.map_none']
          exact ⟨⟨_, rfl⟩, rfl⟩
  · rw [if_pos hst]
    exact ⟨⟨_, rfl⟩, rfl⟩

/-- Failure atomicity at an answer `500 Internal Server Error` on an empty
cache. -/
theorem getLatestReleaseURL_failure_atomic_witness :
    (∃ err, (getLatestReleaseURL serverErrorEnv freshState).1 = Outcome.ret (some err)) ∧
      (getLatestReleaseURL serverErrorEnv freshState).2.client = freshState.client :=
  getLatestReleaseURL_failure_atomic serverErrorEnv freshState
    { StatusCode := 500, Status := "500 Internal Server Error",
      body := { data := [], readErr := false } }
    (Or.inl rfl) rfl (Or.inl (by decide))

/-- C8: on an empty cache and a 200 answer whose body decodes to the asset
list `[null]`, a list that holds no name ending in `-linux.tar.gz`,
`getLatestReleaseURL` does not reach its error return: it panics at
`asset.Name`, a nil pointer dereference.  The client fields are as they were.
On the empty list `[]` the same call returns the error
`unable to extract the download URL`. -/
theorem getLatestReleaseURL_null_asset_panics :
    freshState.client.cpxReleaseDownloadURL = "" ∧
      (releaseEnv nullInfo).http repoURL = some (okResponse [123, 125]) ∧
      (releaseEnv nullInfo).unmarshal [123, 125] = some nullInfo ∧
      nullInfo.Assets = some [none] ∧
      (getLatestReleaseURL (releaseEnv nullInfo) freshState).1 = Outcome.panic ∧
      (getLatestReleaseURL (releaseEnv nullInfo) freshState).2.client = freshState.client ∧
      (getLatestReleaseURL (releaseEnv { nullInfo with Assets := some [] }) freshState).1 =
        Outcome.ret (some (Err.text "unable to extract the download URL")) := by
  decide

/-- Running the calls of two lists of visits one after the other. -/
theorem runVisits_append (a b : List Visit) (res : List Bytes) :
    runVisits (a ++ b) res =
      match runVisits a res with
      | (some err, res1) => (some err, res1)
      | (none, res1) => runVisits b res1 := by
  induction a generalizing res with
  | nil => rfl
  | cons v vs ih =>
    simp only [List.cons_append, runVisits]
    rcases hfn : crdWalkFn res v.name v.walkErr v.contents with ⟨e, res1⟩
    cases e with
    | some err => rfl
    | none => exact ih res1

mutual
/-- The walk of a tree is the run of the function literal over its visits. -/
theorem walk_eq_runVisits :
    ∀ (t : Tree) (res : List Bytes), walk t res = runVisits t.visitsInOrder res
  | Tree.file name contents, res => by
    simp only [walk, Tree.visitsInOrder, runVisits]
    rcases crdWalkFn res name false contents with ⟨e, res1⟩
    cases e <;> rfl
  | Tree.broken name, res => by
    simp only [walk, Tree.visitsInOrder, runVisits]
    rcases crdWalkFn res name true none with ⟨e, res1⟩
    cases e <;> rfl
  | Tree.dir name readable entries, res => by
    simp only [walk, Tree.visitsInOrder, runVisits]
    rcases crdWalkFn res name (!readable) none with ⟨e, res1⟩
    cases e with
    | some err => rfl
    | none =>
      cases readable with
      | true => exact walkList_eq_runVisits entries res1
      | false => rfl
/-- The walk of a list of trees is the run of the function literal over
their visits. -/
theorem walkList_eq_runVisits :
    ∀ (ts : List Tree) (res : List Bytes), walkList ts res = runVisits (visitsList ts) res
  | [], _ => rfl
  | t :: ts, res => by
    rw [walkList, visitsList, runVisits_append, walk_eq_runVisits t res]
    rcases runVisits t.visitsInOrder res with ⟨e, res1⟩
    cases e with
    | some err => rfl
    | none => exact walkList_eq_runVisits ts res1
end

/-- The function literal returns nil and leaves the list as it is on an entry
for which the walk reports an error and on one whose name does not match. -/
theorem crdWalkFn_skip (res : List Bytes) (name : String) (walkErr : Bool)
    (contents : Option Bytes) (h : (!walkErr && MatchString crdRegex name) = false) :
    crdWalkFn res name walkErr contents = (none, res) := by
  unfold crdWalkFn
  rw [h]
  rfl

/-- The function literal appends the contents of a matching entry that it
can read. -/
theorem crdWalkFn_read (res : List Bytes) (name : String) (c : Bytes)
    (h : MatchString crdRegex name = true) :
    crdWalkFn res name false (some c) = (none, res ++ [c]) := by
  unfold crdWalkFn
  simp [h]

/-- The function literal returns an error on a matching entry that it cannot
read. -/
theorem crdWalkFn_fail (res : List Bytes) (name : String)
    (h : MatchString crdRegex name = true) :
    crdWalkFn res name false none =
      (some (Err.wrap (Err.sys "ioutil.ReadFile" name) "unable to read file"), res) := by
  unfold crdWalkFn
  simp [h, errorsWrapf]

/-- When every read the calls make succeeds, the run returns nil and has
appended, in order, the contents of the matching entries for which the walk
reports no error. -/
theorem runVisits_ok (vs : List Visit) (res : List Bytes)
    (h : ∀ e ∈ vs, e.walkErr = false → MatchString crdRegex e.name = true → e.contents ≠ none) :
    ∃ out, runVisits vs res = (none, res ++ out) ∧
      out.map some =
        (vs.filter (fun e => !e.walkErr && MatchString crdRegex e.name)).map
          (fun e => e.contents) := by
  induction vs generalizing res with
  | nil => exact ⟨[], by simp [runVisits], rfl⟩
  | cons v vs ih =>
    have hv := h v (List.mem_cons_self v vs)
    have hrest : ∀ e ∈ vs, e.walkErr = false → MatchString crdRegex e.name = true →
        e.contents ≠ none := fun e he => h e (List.mem_cons_of_mem v he)
    cases hsel : (!v.walkErr && MatchString crdRegex v.name) with
    | false =>
      obtain ⟨out, hrun, hout⟩ := ih res hrest
      refine ⟨out, ?_, ?_⟩
      · simp only [runVisits, crdWalkFn_skip res v.name v.walkErr v.contents hsel]
        exact hrun
      · rw [List.filter_cons_of_neg (by simp [hsel])]
        exact hout
    | true =>
      have hw : v.walkErr = false := by
        cases hwe : v.walkErr with
        | false => rfl
        | true => simp [hwe] at hsel
      have hm : MatchString crdRegex v.name = true := by
        simpa [hw] using hsel
      cases hc : v.contents with
      | none => exact absurd hc (hv hw hm)
      | some c =>
        obtain ⟨out, hrun, hout⟩ := ih (res ++ [c]) hrest
        refine ⟨c :: out, ?_, ?_⟩
        · simp only [runVisits, hw, hc, crdWalkFn_read res v.name c hm]
          rw [hrun]
          simp
        · rw [List.filter_cons_of_pos (by simp [hsel])]
          simp [hout, hc]

/-- When some call makes a read that fails, the run returns an error. -/
theorem runVisits_failed (vs : List Visit) (res : List Bytes)
    (h : ∃ e ∈ vs, e.walkErr = false ∧ MatchString crdRegex e.name = true ∧ e.contents = none) :
    ∃ err res1, runVisits vs res = (some err, res1) := by
  induction vs generalizing res with
  | nil =>
    obtain ⟨e, he, _⟩ := h
    cases he
  | cons v vs ih =>
    simp only [runVisits]
    rcases hfn : crdWalkFn res v.name v.walkErr v.contents with ⟨r, res1⟩
    cases r with
    | some err => exact ⟨err, res1, rfl⟩
    | none =>
      obtain ⟨e, he, hw, hm, hc⟩ := h
      rcases List.mem_cons.1 he with heq | hmem
      · subst heq
        rw [hw, hc, crdWalkFn_fail res e.name hm] at hfn
        cases hfn
      · exact ih res1 ⟨e, hmem, hw, hm, hc⟩

/-- After a successful fetch `getCRDsYAML` returns what the walk of the
start folder yields: the list and nil, or nil and the wrapped error. -/
theorem getCRDsYAML_fetched (env : Env) (s s1 : State) (v : String)
    (hfetch : downloadCpx env s = (Outcome.ret (v, none), s1)) :
    getCRDsYAML env s =
      match runVisits (env.lstatTree s1.fs (Sprintf env (crdFolder env) v)).visits [] with
      | (some err, _) =>
        (Outcome.ret (none, errorsWrapf (some err) "unable to read the directory"), s1)
      | (none, res) => (Outcome.ret (some res, none), s1) := by
  unfold getCRDsYAML
  rw [hfetch]
  dsimp only
  rw [walk_eq_runVisits]
  rfl

/-- The readability of the trees of a list is the readability of each. -/
theorem allReadableList_eq_all (l : List Tree) :
    allReadableList l = l.all Tree.allReadable := by
  induction l with
  | nil => rfl
  | cons t ts ih => simp [allReadableList, ih]

/-- No directory of the trees of a list matches when none of each does. -/
theorem noMatchingDirList_eq_all (l : List Tree) :
    noMatchingDirList l = l.all Tree.noMatchingDir := by
  induction l with
  | nil => rfl
  | cons t ts ih => simp [noMatchingDirList, ih]

/-- Putting an entry at its place keeps what holds of all entries. -/
theorem all_insertByName (P : Tree → Bool) (t : Tree) (l : List Tree) :
    (insertByName t l).all P = (P t && l.all P) := by
  induction l with
  | nil => simp [insertByName]
  | cons u us ih =>
    unfold insertByName
    split
    · simp only [List.all_cons, ih]
      cases P u <;> cases P t <;> simp
    · simp

/-- Sorting the entries keeps what holds of all entries. -/
theorem all_orderByName (P : Tree → Bool) (l : List Tree) :
    (orderByName l).all P = l.all P := by
  induction l with
  | nil => rfl
  | cons t ts ih => simp [orderByName, all_insertByName, ih]

mutual
/-- Sorting the names keeps the readability of a tree. -/
theorem sortNames_allReadable : ∀ (t : Tree), t.sortNames.allReadable = t.allReadable
  | Tree.file _ _ => rfl
  | Tree.broken _ => rfl
  | Tree.dir name readable entries => by
    simp only [Tree.sortNames, Tree.allReadable]
    rw [allReadableList_eq_all, all_orderByName, ← allReadableList_eq_all,
      sortNamesList_allReadable entries]
/-- Sorting the names keeps the readability of the trees of a list. -/
theorem sortNamesList_allReadable :
    ∀ (l : List Tree), allReadableList (sortNamesList l) = allReadableList l
  | [] => rfl
  | t :: ts => by
    simp only [sortNamesList, allReadableList]
    rw [sortNames_allReadable t, sortNamesList_allReadable ts]
end

mutual
/-- Sorting the names keeps that no directory of a tree matches. -/
theorem sortNames_noMatchingDir : ∀ (t : Tree), t.sortNames.noMatchingDir = t.noMatchingDir
  | Tree.file _ _ => rfl
  | Tree.broken _ => rfl
  | Tree.dir name readable entries => by
    simp only [Tree.sortNames, Tree.noMatchingDir]
    rw [noMatchingDirList_eq_all, all_orderByName, ← noMatchingDirList_eq_all,
      sortNamesList_noMatchingDir entries]
/-- Sorting the names keeps that no directory of the trees of a list
matches. -/
theorem sortNamesList_noMatchingDir :
    ∀ (l : List Tree), noMatchingDirList (sortNamesList l) = noMatchingDirList l
  | [] => rfl
  | t :: ts => by
    simp only [sortNamesList, noMatchingDirList]
    rw [sortNames_noMatchingDir t, sortNamesList_noMatchingDir ts]
end

mutual
/-- In a tree in which every entry is readable and no directory matches, the
walk reports no error for any entry, and every matching entry can be read. -/
theorem visitsInOrder_readable :
    ∀ (t : Tree), t.allReadable = true → t.noMatchingDir = true →
      ∀ e ∈ t.visitsInOrder,
        e.walkErr = false ∧ (MatchString crdRegex e.name = true → e.contents ≠ none)
  | Tree.file name contents, hr, _, e, he => by
    simp only [Tree.visitsInOrder, List.mem_singleton] at he
    subst he
    simp only [Tree.allReadable] at hr
    refine ⟨rfl, fun _ hc => ?_⟩
    simp only at hc
    rw [hc] at hr
    cases hr
  | Tree.broken name, hr, _, e, he => by
    simp [Tree.allReadable] at hr
  | Tree.dir name readable entries, hr, hd, e, he => by
    simp only [Tree.allReadable, Bool.and_eq_true] at hr
    simp only [Tree.noMatchingDir, Bool.and_eq_true, Bool.not_eq_true'] at hd
    simp only [Tree.visitsInOrder, hr.1, if_true, List.mem_cons] at he
    rcases he with he | he
    · subst he
      refine ⟨by simp, fun hm => ?_⟩
      simp only at hm
      rw [hd.1] at hm
      cases hm
    · exact visitsList_readable entries hr.2 hd.2 e he
/-- In the trees of a list in which every entry is readable and no directory
matches, the walk reports no error for any entry, and every matching entry
can be read. -/
theorem visitsList_readable :
    ∀ (l : List Tree), allReadableList l = true → noMatchingDirList l = true →
      ∀ e ∈ visitsList l,
        e.walkErr = false ∧ (MatchString crdRegex e.name = true → e.contents ≠ none)
  | [], _, _, e, he => by
    simp [visitsList] at he
  | t :: ts, hr, hd, e, he => by
    simp only [allReadableList, Bool.and_eq_true] at hr
    simp only [noMatchingDirList, Bool.and_eq_true] at hd
    simp only [visitsList, List.mem_append] at he
    rcases he with he | he
    · exact visitsInOrder_readable t hr.1 hd.1 e he
    · exact visitsList_readable ts hr.2 hd.2 e he
end

/-- A format without a percent sign is copied, and an operand that is still
unused is appended as extra. -/
theorem sprintfAux_copy (arg : List Char) (used : Bool) (l : List Char) (h : '%' ∉ l) :
    sprintfAux arg used l = some (l ++ (if used then [] else sprintfExtra arg)) := by
  induction l with
  | nil => simp [sprintfAux]
  | cons c rest ih =>
    have hc : c ≠ '%' := fun hc => h (hc ▸ List.mem_cons_self c rest)
    have hrest : '%' ∉ rest := fun hm => h (List.mem_cons_of_mem c hm)
    unfold sprintfAux
    rw [if_neg hc, ih hrest]
    rfl

/-- In a format whose only percent sign is that of one `%s`, the operand
takes the place of the `%s`. -/
theorem sprintfAux_subst (arg pre post : List Char) (hpre : '%' ∉ pre) (hpost : '%' ∉ post) :
    sprintfAux arg false (pre ++ '%' :: 's' :: post) = some (pre ++ arg ++ post) := by
  induction pre with
  | nil =>
    have hs : sprintfAux arg true post = some (post ++ []) := by
      simpa using sprintfAux_copy arg true post hpost
    simp [sprintfAux, hs]
  | cons c rest ih =>
    have hc : c ≠ '%' := fun hc => hpre (hc ▸ List.mem_cons_self c rest)
    have hrest : '%' ∉ rest := fun hm => hpre (List.mem_cons_of_mem c hm)
    rw [List.cons_append]
    unfold sprintfAux
    rw [if_neg hc, ih hrest]
    simp

/-- C9, amended: after a successful fetch, when every entry of the tree at
the CRD folder `fmt.Sprintf(crdFolder, version)` is readable and no directory
of it has a base name that matches `crd(.*)yaml`, `getCRDsYAML` returns nil as
error and a list with exactly one string per entry whose base name matches,
each the contents of that file, in the order of `filepath.Walk` (a directory
before its entries, the entries of a directory sorted by name), and nothing
for the other entries.  The folder is `crdFolder` with the version in the
place of its `%s` when that is its only percent sign. -/
theorem getCRDsYAML_collects (env : Env) (s s1 : State) (v : String)
    (hfetch : downloadCpx env s = (Outcome.ret (v, none), s1))
    (hread : (env.lstatTree s1.fs (Sprintf env (crdFolder env) v)).allReadable = true)
    (hdirs : (env.lstatTree s1.fs (Sprintf env (crdFolder env) v)).noMatchingDir = true) :
    (∃ res, getCRDsYAML env s = (Outcome.ret (some res, none), s1) ∧
      res.map some =
        ((env.lstatTree s1.fs (Sprintf env (crdFolder env) v)).visits.filter
          (fun e => MatchString crdRegex e.name)).map (fun e => e.contents)) ∧
      ∀ pre post : List Char, (crdFolder env).data = pre ++ '%' :: 's' :: post →
        '%' ∉ pre → '%' ∉ post →
        Sprintf env (crdFolder env) v = String.mk (pre ++ v.data ++ post) := by
  have hvis : ∀ e ∈ (env.lstatTree s1.fs (Sprintf env (crdFolder env) v)).visits,
      e.walkErr = false ∧ (MatchString crdRegex e.name = true → e.contents ≠ none) :=
    visitsInOrder_readable _
      ((sortNames_allReadable _).trans hread) ((sortNames_noMatchingDir _).trans hdirs)
  obtain ⟨out, hrun, hout⟩ :=
    runVisits_ok (env.lstatTree s1.fs (Sprintf env (crdFolder env) v)).visits []
      (fun e he _ hm => (hvis e he).2 hm)
  refine ⟨⟨out, ?_, ?_⟩, ?_⟩
  · rw [getCRDsYAML_fetched env s s1 v hfetch, hrun]
    rfl
  · rw [hout]
    congr 1
    apply List.filter_congr
    intro e he
    simp [(hvis e he).1]
  · intro pre post hfmt hpre hpost
    unfold Sprintf
    rw [hfmt, sprintfAux_subst v.data pre post hpre hpost]

/-- C9 on the scenario of the specification, with the directory holding its
entries in the order `other.txt`, `crd-b.yaml`, `crd-a.yaml` and found at the
folder `/tmp/istio/istio-1.3.0/install/kubernetes/helm/istio-init/files`: the
result is the contents of `crd-a.yaml` and of `crd-b.yaml`, in that order. -/
theorem getCRDsYAML_collects_witness :
    Sprintf (crdEnvAt shuffledScenarioTree) (crdFolder (crdEnvAt shuffledScenarioTree))
        "istio-1.3.0" = crdStartFolder ∧
      (getCRDsYAML (crdEnvAt shuffledScenarioTree) bypassState).1 =
        Outcome.ret (some [[97], [98]], none) ∧
      ((∃ res, getCRDsYAML (crdEnvAt shuffledScenarioTree) bypassState =
          (Outcome.ret (some res, none),
            (downloadCpx (crdEnvAt shuffledScenarioTree) bypassState).2) ∧
        res.map some =
          (shuffledScenarioTree.visits.filter (fun e => MatchString crdRegex e.name)).map
            (fun e => e.contents)) ∧
        ∀ pre post : List Char,
          (crdFolder (crdEnvAt shuffledScenarioTree)).data = pre ++ '%' :: 's' :: post →
          '%' ∉ pre → '%' ∉ post →
          Sprintf (crdEnvAt shuffledScenarioTree) (crdFolder (crdEnvAt shuffledScenarioTree))
            "istio-1.3.0" = String.mk (pre ++ "istio-1.3.0".data ++ post)) :=
  ⟨by decide, by decide,
    getCRDsYAML_collects (crdEnvAt shuffledScenarioTree) bypassState
      (downloadCpx (crdEnvAt shuffledScenarioTree) bypassState).2 "istio-1.3.0"
      (Prod.ext (by decide) rfl) (by decide) (by decide)⟩

/-- C9 as stated fails.  In a tree in which every entry is readable and the
directory `crds.yaml.d` has a matching name, `getCRDsYAML` reads the
directory as a file and returns a nil list and an error.  And in a readable
tree with the file `sub.crd.yaml` and the directory `sub` holding
`crd-z.yaml`, the result has the contents of `sub/crd-z.yaml` before those of
`sub.crd.yaml`, while the path of `sub.crd.yaml` is the first of the two in
lexical order. -/
theorem getCRDsYAML_matching_dir_and_path_order :
    matchingDirTree.allReadable = true ∧
      (getCRDsYAML (crdEnvAt matchingDirTree) bypassState).1 =
        Outcome.ret (none, some (Err.wrap
          (Err.wrap (Err.sys "ioutil.ReadFile" "crds.yaml.d") "unable to read file")
          "unable to read the directory")) ∧
      pathOrderTree.allReadable = true ∧
      (getCRDsYAML (crdEnvAt pathOrderTree) bypassState).1 =
        Outcome.ret (some [[1], [2]], none) ∧
      ((pathOrderTree.sortNames.walkEntries (Dir crdStartFolder)).filter
          (fun e => MatchString crdRegex e.2.name)).map (fun e => (e.1, e.2.contents)) =
        [("/tmp/istio/istio-1.3.0/install/kubernetes/helm/istio-init/files/sub/crd-z.yaml",
            some [1]),
         ("/tmp/istio/istio-1.3.0/install/kubernetes/helm/istio-init/files/sub.crd.yaml",
            some [2])] ∧
      ltChars
        "/tmp/istio/istio-1.3.0/install/kubernetes/helm/istio-init/files/sub.crd.yaml".data
        "/tmp/istio/istio-1.3.0/install/kubernetes/helm/istio-init/files/sub/crd-z.yaml".data =
          true := by
  decide

/-- C10, amended: after a successful fetch, an error the walk reports for an
entry (the start folder included) is not fatal: the function literal returns
nil for it and the entry adds nothing, so that `getCRDsYAML` returns a list
and a nil error whenever every read of a matching entry succeeds; and a
failed read of a matching entry aborts the walk, `getCRDsYAML` returning a
nil list and a non-nil error. -/
theorem getCRDsYAML_walk_errors (env : Env) (s s1 : State) (v : String)
    (hfetch : downloadCpx env s = (Outcome.ret (v, none), s1)) :
    (∀ res name contents, crdWalkFn res name true contents = (none, res)) ∧
      ((∀ e ∈ (env.lstatTree s1.fs (Sprintf env (crdFolder env) v)).visits,
          e.walkErr = false → MatchString crdRegex e.name = true → e.contents ≠ none) →
        ∃ res, getCRDsYAML env s = (Outcome.ret (some res, none), s1) ∧
          res.map some =
            ((env.lstatTree s1.fs (Sprintf env (crdFolder env) v)).visits.filter
              (fun e => !e.walkErr && MatchString crdRegex e.name)).map (fun e => e.contents)) ∧
      ((∃ e ∈ (env.lstatTree s1.fs (Sprintf env (crdFolder env) v)).visits,
          e.walkErr = false ∧ MatchString crdRegex e.name = true ∧ e.contents = none) →
        ∃ err, getCRDsYAML env s = (Outcome.ret (none, some err), s1)) := by
  refine ⟨fun res name contents => crdWalkFn_skip res name true contents rfl, ?_, ?_⟩
  · intro h
    obtain ⟨out, hrun, hout⟩ :=
      runVisits_ok (env.lstatTree s1.fs (Sprintf env (crdFolder env) v)).visits [] h
    refine ⟨out, ?_, hout⟩
    rw [getCRDsYAML_fetched env s s1 v hfetch, hrun]
    rfl
  · intro h
    obtain ⟨err, res1, hrun⟩ :=
      runVisits_failed (env.lstatTree s1.fs (Sprintf env (crdFolder env) v)).visits [] h
    refine ⟨Err.wrap err "unable to read the directory", ?_⟩
    rw [getCRDsYAML_fetched env s s1 v hfetch, hrun]
    rfl

/-- C10 on a directory in which `crd-b.yaml` cannot be read: the result is a
nil list and a non-nil error. -/
theorem getCRDsYAML_walk_errors_witness :
    (getCRDsYAML (crdEnv failedReadTree) bypassState).1 =
        Outcome.ret (none, some (Err.wrap
          (Err.wrap (Err.sys "ioutil.ReadFile" "crd-b.yaml") "unable to read file")
          "unable to read the directory")) ∧
      ∃ err, getCRDsYAML (crdEnv failedReadTree) bypassState =
        (Outcome.ret (none, some err), (downloadCpx (crdEnv failedReadTree) bypassState).2) :=
  ⟨by decide,
    (getCRDsYAML_walk_errors (crdEnv failedReadTree) bypassState
      (downloadCpx (crdEnv failedReadTree) bypassState).2 "istio-1.3.0"
      (Prod.ext (by decide) rfl)).2.2
      ⟨{ name := "crd-b.yaml", walkErr := false, contents := none }, by decide, rfl, by decide,
        rfl⟩⟩

/-- C10 as stated fails: when `Lstat` fails on the start folder itself, and
when it fails on the entry `crd-a.yaml` of the start folder, `getCRDsYAML`
returns a non-nil list and a nil error. -/
theorem getCRDsYAML_walk_error_not_fatal :
    (getCRDsYAML (crdEnv (Tree.broken "files")) bypassState).1 =
        Outcome.ret (some [], none) ∧
      (getCRDsYAML (crdEnv brokenEntryTree) bypassState).1 =
        Outcome.ret (some [[98]], none) := by
  decide

/-- C11: when the render script is found and exits with status 0,
`runGenerateYamlScript` on a path `p` passes `p` itself as `--inputfile`, and
passes as `--outputfile` and returns `strings.Replace(p, ".tmpl", ".yaml", -1)`,
the path with every occurrence of `.tmpl` replaced, not only the trailing
one. -/
theorem runGenerateYamlScript_output_path (env : Env) (s : State) (p : String)
    (hscript : statNotExist s.fs (cpxGenerateYamlScript env) = false)
    (hexit : (env.exec ["/bin/sh", cpxGenerateYamlScript env, "--inputfile", p,
      "--outputfile", Replace p ".tmpl" ".yaml"] s.fs).1 = true) :
    (runGenerateYamlScript env s p).1 = (Replace p ".tmpl" ".yaml", none) ∧
      (runGenerateYamlScript env s p).2.trace =
        s.trace ++ [Event.exec ["/bin/sh", cpxGenerateYamlScript env, "--inputfile", p,
          "--outputfile", Replace p ".tmpl" ".yaml"]] := by
  unfold runGenerateYamlScript
  rw [hscript]
  have hexit1 : (env.exec ["/bin/sh", cpxGenerateYamlScript env, "--inputfile", p,
      "--outputfile", Replace p ".tmpl" ".yaml"]
      (s.log (Event.exec ["/bin/sh", cpxGenerateYamlScript env, "--inputfile", p,
        "--outputfile", Replace p ".tmpl" ".yaml"])).fs).1 = true := hexit
  simp only [Bool.false_eq_true, if_false, hexit1, if_true]
  exact ⟨trivial, rfl⟩

/-- C11 on the path `/tmp/conf.tmpl.d/gw.tmpl`, which ends in `.tmpl` and
holds `.tmpl` once more in a directory name: the script is given
`/tmp/conf.yaml.d/gw.yaml` as `--outputfile`, and that path is returned; it
is not `/tmp/conf.tmpl.d/gw.yaml`, the path with only the trailing extension
swapped. -/
theorem runGenerateYamlScript_output_path_witness :
    HasSuffix "/tmp/conf.tmpl.d/gw.tmpl" ".tmpl" = true ∧
      (runGenerateYamlScript renderEnv renderState "/tmp/conf.tmpl.d/gw.tmpl").1 =
        ("/tmp/conf.yaml.d/gw.yaml", none) ∧
      (runGenerateYamlScript renderEnv renderState "/tmp/conf.tmpl.d/gw.tmpl").2.trace =
        [Event.exec ["/bin/sh", cpxGenerateYamlScript renderEnv, "--inputfile",
          "/tmp/conf.tmpl.d/gw.tmpl", "--outputfile", "/tmp/conf.yaml.d/gw.yaml"]] ∧
      (runGenerateYamlScript renderEnv renderState "/tmp/conf.tmpl.d/gw.tmpl").1.1 ≠
        "/tmp/conf.tmpl.d/gw.yaml" :=
  have h := runGenerateYamlScript_output_path renderEnv renderState "/tmp/conf.tmpl.d/gw.tmpl"
    (by decide) (by decide)
  ⟨by decide, h.1, h.2, by decide⟩

end Cpx
